import Mathlib

/-!
# Email build pipeline (`tools/build-mail.js`, `tools/serve-dist.js`)

A shallow embedding of the CSS partitioner (`splitCss`), the selector usage
scanner (`collectUsedSelectors`), the CSS pruner (`trimInlineCss`), the
placeholder localiser (`localizeHtmlPlaceholders`, `getDeep`), the pass over
empty at-rules (`stripEmptyAtRules`), the variant builder (`buildHtmlVariant`),
the locale loop of `main`, and the path resolution of the preview server
(`resolvePath`).

Conventions of the embedding.

* A JavaScript string is a list of characters (`Str`).  The regular
  expressions of the source carry no `u` flag and only test membership of single
  characters in ASCII classes or their complements, so matching per character
  agrees with matching per UTF-16 code unit.
* PostCSS, csso, Pug and inline-css are external collaborators.  The CSS
  functions are embedded on the parsed tree (`Node`); where a function of the
  source goes from text to text, the parser, the stringifier and the minifier
  are parameters (`CssLib`).
* A loop `while ((m = re.exec(s)))` over a global regular expression is a
  left-to-right scan for the leftmost, non-overlapping matches; each regular
  expression is embedded as a function that matches it anchored at the head of
  the remaining text and reports the captures and the length of the match.
* `lastIndex` of the shared regular expression of `trimInlineCss` counts UTF-16
  code units, as in JavaScript.
* A property access `cur[p]` that is not an own property goes to a parameter
  (`ext`), which can also raise: an accessor of a prototype may throw.
* `die` ends the process: a run is the list of the outputs written before it and
  the message it printed.
* `path.join` and `path.normalize` are those of Node.js on a POSIX system; the
  file system and `decodeURIComponent` are parameters (`ServeEnv`).
-/

namespace EmailBase

/-- A JavaScript string, as the list of its characters. -/
abbrev Str := List Char

/-! ## PostCSS tree -/

/-- A node of a PostCSS tree.  `name` of an at-rule is the text after `@`
(`-webkit-keyframes` for `@-webkit-keyframes`); `nodes` of an at-rule is `none`
for a statement at-rule without a block (`@charset "utf-8";`).  Formatting
(`raws`) is not modelled. -/
inductive Node where
  | rule (selector : Str) (nodes : List Node)
  | atrule (name : Str) (params : Str) (nodes : Option (List Node))
  | decl (prop : Str) (value : Str)
  | comment (text : Str)

/-- The external CSS collaborators: `postcss.parse` (the call passes
`{ parser: safeParser }`, an option that `postcss.parse` does not read),
`root.toString()`, and `csso.minify(css).css` (`none` when it throws).  `parse`
stands for the calls in which `postcss.parse` returns a tree: on malformed CSS
it throws a `CssSyntaxError`, which none of `splitCss`, `trimInlineCss`,
`stripEmptyAtRules` and `buildHtmlVariant` catches and which ends the build; that
run is not embedded. -/
structure CssLib where
  parse : Str → List Node
  stringify : List Node → Str
  minify : Str → Option Str

/-! ## `splitCss` -/

/-- The set `HEAD_ATRULES` of `splitCss`. -/
def HEAD_ATRULES : List Str :=
  ["media".toList, "supports".toList, "font-face".toList, "keyframes".toList,
   "-webkit-keyframes".toList, "-moz-keyframes".toList, "charset".toList]

/-- The test `node.type === 'atrule' && HEAD_ATRULES.has(node.name)`. -/
def isHeadNode : Node → Bool
  | .atrule name _ _ => HEAD_ATRULES.contains name
  | _ => false

/-- One turn of `root.each`: the node is appended to `headRoot` (first
component) or to `inlineRoot` (second component). -/
def splitStep (acc : List Node × List Node) (node : Node) : List Node × List Node :=
  if isHeadNode node then (acc.1 ++ [node], acc.2) else (acc.1, acc.2 ++ [node])

/-- The loop `root.each(...)` of `splitCss`, from two empty roots: the pair
`(headRoot.nodes, inlineRoot.nodes)`. -/
def splitNodes (root : List Node) : List Node × List Node :=
  root.foldl splitStep ([], [])

/-- The function `splitCss(cssText, { minifyHead })`: the pair
`(headCss, inlineCss)`. -/
def splitCss (lib : CssLib) (cssText : Str) (minifyHead : Bool) : Str × Str :=
  let parts := splitNodes (lib.parse cssText)
  let headCss := lib.stringify parts.1
  let inlineCssText := lib.stringify parts.2
  let headCss := if minifyHead then (lib.minify headCss).getD headCss else headCss
  (headCss, inlineCssText)

/-! ## String helpers -/

/-- The double quote character. -/
def dquote : Char := Char.ofNat 34

/-- The single quote character. -/
def squote : Char := Char.ofNat 39

/-- The class `\s` of a JavaScript regular expression (white space and line
terminators); the same characters are removed by `String.prototype.trim`. -/
def isSpace (c : Char) : Bool :=
  let n := c.toNat
  n == 0x09 || n == 0x0A || n == 0x0B || n == 0x0C || n == 0x0D || n == 0x20 ||
  n == 0xA0 || n == 0x1680 || (0x2000 ≤ n && n ≤ 0x200A) || n == 0x2028 ||
  n == 0x2029 || n == 0x202F || n == 0x205F || n == 0x3000 || n == 0xFEFF

/-- The class `[_a-zA-Z0-9-]` (the same set as `[a-zA-Z0-9_-]`). -/
def isTokChar (c : Char) : Bool :=
  c == '_' || ('a' ≤ c && c ≤ 'z') || ('A' ≤ c && c ≤ 'Z') || ('0' ≤ c && c ≤ '9') || c == '-'

/-- The class `\w`, that is `[A-Za-z0-9_]`. -/
def isWordChar (c : Char) : Bool :=
  ('a' ≤ c && c ≤ 'z') || ('A' ≤ c && c ≤ 'Z') || ('0' ≤ c && c ≤ '9') || c == '_'

/-- Lower case of an ASCII letter; every other character is unchanged.  Under
the `i` flag without the `u` flag a pattern letter matches exactly the two ASCII
letters of either case. -/
def lowerAscii (c : Char) : Char :=
  if 'A' ≤ c && c ≤ 'Z' then Char.ofNat (c.toNat + 32) else c

/-- The method `s.trim()`. -/
def trim (s : Str) : Str :=
  ((s.dropWhile isSpace).reverse.dropWhile isSpace).reverse

/-- The call `s.split(sep)` with a one-character separator: the pieces between
the separators, the empty ones included (`"".split(",")` is `[""]`). -/
def splitOnChar (sep : Char) : Str → List Str
  | [] => [[]]
  | c :: cs =>
    if c == sep then [] :: splitOnChar sep cs
    else match splitOnChar sep cs with
      | [] => [[c]]
      | p :: ps => (c :: p) :: ps

/-- The call `s.split(/\s+/g)`: the pieces between the maximal runs of white
space, the empty ones at either end included.  `inSep` tells that the
previous character was white space. -/
def splitSpaces (inSep : Bool) : Str → List Str
  | [] => [[]]
  | c :: cs =>
    if isSpace c then
      (if inSep then splitSpaces true cs else [] :: splitSpaces true cs)
    else match splitSpaces false cs with
      | [] => [[c]]
      | p :: ps => (c :: p) :: ps

/-- The expression `s.split(/\s+/g).map((x) => x.trim()).filter(Boolean)`. -/
def spaceTokens (s : Str) : List Str :=
  ((splitSpaces false s).map trim).filter (fun x => !x.isEmpty)

/-- The successive matches of a global regular expression: the loop
`while ((m = re.exec(s)))`, started with `lastIndex = skip`.  `matchAt prev rest`
matches the expression anchored at the head of `rest` (`prev` is the character
before it, for `\b`) and gives the captures with the length of the match, which
is positive for every expression of the source; after a match the search goes on
right behind it (`skip` counts the characters of the match still to pass). -/
def scanAll {α : Type} (matchAt : Option Char → Str → Option (α × Nat)) :
    Nat → Option Char → Str → List α
  | _, _, [] => []
  | k + 1, _, c :: cs => scanAll matchAt k (some c) cs
  | 0, prev, c :: cs =>
    match matchAt prev (c :: cs) with
    | some (a, len) => a :: scanAll matchAt (len - 1) (some c) cs
    | none => scanAll matchAt 0 (some c) cs

/-- The expressions `/\.([_a-zA-Z0-9-]+)/` and `/#([_a-zA-Z0-9-]+)/` anchored at
the head of the text (`lead` is `.` or `#`): the capture and the length of the
match.  The run is greedy and no shorter run can match, since nothing follows
it in the expression. -/
def matchPrefixed (lead : Char) : Str → Option (Str × Nat)
  | [] => none
  | c :: cs =>
    if c == lead then
      let tok := cs.takeWhile isTokChar
      if tok.isEmpty then none else some (tok, tok.length + 1)
    else none

/-- All captures of `clsRe = /\.([_a-zA-Z0-9-]+)/g` in a selector. -/
def clsTokens (sel : Str) : List Str :=
  scanAll (fun _ s => matchPrefixed '.' s) 0 none sel

/-- All captures of `idRe = /#([_a-zA-Z0-9-]+)/g` in a selector. -/
def idTokens (sel : Str) : List Str :=
  scanAll (fun _ s => matchPrefixed '#' s) 0 none sel

/-! ## `trimInlineCss` -/

/-- The value of `collectUsedSelectors`: two JavaScript `Set`s, each as the list
of the values added to it; only `has` is ever called on them. -/
structure UsageSet where
  classes : List Str
  ids : List Str

/-- A match of `attrTokenRe`: `attr` is `mm[1]` as written in the selector, `op`
is `mm[2]`, `value` is `mm[3] || mm[4] || mm[5] || ''` and `len` is the length of
the match. -/
structure AttrMatch where
  attr : Str
  op : Str
  value : Str
  len : Nat

/-- Matches a word of the pattern without regard to ASCII case at the head of
the text: the text matched and the rest. -/
def matchWordCI : Str → Str → Option (Str × Str)
  | [], s => some ([], s)
  | _ :: _, [] => none
  | p :: ps, c :: cs =>
    if lowerAscii c == p then
      match matchWordCI ps cs with
      | some (w, rest) => some (c :: w, rest)
      | none => none
    else none

/-- The group `(class|id)` under the `i` flag. -/
def matchAttrName (s : Str) : Option (Str × Str) :=
  match matchWordCI "class".toList s with
  | some r => some r
  | none => matchWordCI "id".toList s

/-- The group `(=|~=|\^=|\$=|\*=)`: the operator and the rest. -/
def matchAttrOp : Str → Option (Str × Str)
  | '=' :: rest => some ("=".toList, rest)
  | '~' :: '=' :: rest => some ("~=".toList, rest)
  | '^' :: '=' :: rest => some ("^=".toList, rest)
  | '$' :: '=' :: rest => some ("$=".toList, rest)
  | '*' :: '=' :: rest => some ("*=".toList, rest)
  | _ => none

/-- The tail `\s*\]` of `attrTokenRe`: the number of characters it takes. -/
def matchAttrClose (s : Str) : Option Nat :=
  match s.dropWhile isSpace with
  | ']' :: _ => some ((s.takeWhile isSpace).length + 1)
  | _ => none

/-- A quoted alternative followed by the tail: `"([^"]*)"\s*\]` for `q` the double
quote and the same with single quotes: the capture and the number of characters
taken. -/
def matchAttrQuoted (q : Char) : Str → Option (Str × Nat)
  | [] => none
  | c :: cs =>
    if c == q then
      match cs.dropWhile (fun x => x != q) with
      | [] => none
      | _ :: rest =>
        match matchAttrClose rest with
        | some n => some (cs.takeWhile (fun x => x != q), (cs.takeWhile (fun x => x != q)).length + 2 + n)
        | none => none
    else none

/-- The bare alternative followed by the tail: `([^\]\s]+)\s*\]`. -/
def matchAttrBare (s : Str) : Option (Str × Nat) :=
  let v := s.takeWhile (fun x => x != ']' && !isSpace x)
  if v.isEmpty then none
  else match matchAttrClose (s.dropWhile (fun x => x != ']' && !isSpace x)) with
    | some n => some (v, v.length + n)
    | none => none

/-- The part `(?:"([^"]*)"|'([^']*)'|([^\]\s]+))\s*\]` of `attrTokenRe`: the
alternatives are tried in order, the next one when the tail fails after the
previous one. -/
def matchAttrValue (s : Str) : Option (Str × Nat) :=
  match matchAttrQuoted dquote s with
  | some r => some r
  | none =>
    match matchAttrQuoted squote s with
    | some r => some r
    | none => matchAttrBare s

/-- The expression
`attrTokenRe = /\[(class|id)\s*(=|~=|\^=|\$=|\*=)\s*(?:"([^"]*)"|'([^']*)'|([^\]\s]+))\s*\]/gi`
anchored at the head of the text.  Every greedy run of the expression is followed
by something that none of its characters can start, so the first way of matching
is the only one. -/
def matchAttr : Str → Option AttrMatch
  | [] => none
  | c :: s =>
    if c == '[' then
      match matchAttrName s with
      | none => none
      | some (attr, s1) =>
        match matchAttrOp (s1.dropWhile isSpace) with
        | none => none
        | some (op, s2) =>
          match matchAttrValue (s2.dropWhile isSpace) with
          | none => none
          | some (v, n) =>
            some ⟨attr, op, v,
              1 + attr.length + (s1.takeWhile isSpace).length + op.length
                + (s2.takeWhile isSpace).length + n⟩
    else none

/-- The value of `getAttrTokens`, with the `lastIndex` that the shared regular
expression `attrTokenRe` is left with. -/
structure AttrTokens where
  classTokens : List Str
  idTokens : List Str
  forceKeep : Bool
  lastIndex : Nat

/-- The number of UTF-16 code units of a character: the unit in which
`lastIndex` and `length` count. -/
def unitLength (c : Char) : Nat := if c.toNat < 65536 then 1 else 2

/-- The length in UTF-16 code units of the first `n` characters of a text. -/
def unitsOfTake (n : Nat) (s : Str) : Nat := ((s.take n).map unitLength).sum

/-- The loop of `getAttrTokens` over the text from the code unit `pos` on, `skip`
code units of which lie before the place where the search goes on (a search
that would start between the two code units of a character starts behind that
character, since a match begins with `[`).  At the end of the text `exec` gives
`null` and resets `lastIndex` to 0; at a match with an operator other than `=`
and `~=` the loop breaks and `lastIndex` stays behind that match. -/
def getAttrTokensFrom : Nat → Nat → Str → AttrTokens
  | _, _, [] => ⟨[], [], false, 0⟩
  | k + 1, pos, c :: cs => getAttrTokensFrom (k + 1 - unitLength c) (pos + unitLength c) cs
  | 0, pos, c :: cs =>
    match matchAttr (c :: cs) with
    | none => getAttrTokensFrom 0 (pos + unitLength c) cs
    | some mm =>
      if mm.op != "=".toList && mm.op != "~=".toList then
        ⟨[], [], true, pos + unitsOfTake mm.len (c :: cs)⟩
      else
        let rest :=
          getAttrTokensFrom (unitsOfTake mm.len (c :: cs) - unitLength c) (pos + unitLength c) cs
        let raw := trim mm.value
        if raw.isEmpty then rest
        else
          let parts := spaceTokens raw
          ⟨(if mm.attr == "class".toList then parts else []) ++ rest.classTokens,
           (if mm.attr == "id".toList then parts else []) ++ rest.idTokens,
           rest.forceKeep, rest.lastIndex⟩

/-- The closure `getAttrTokens(sel)`, called when `attrTokenRe.lastIndex` is
`lastIndex` (in UTF-16 code units).  The regular expression is created once per
call of `trimInlineCss` and shared by all the selectors of the stylesheet. -/
def getAttrTokens (sel : Str) (lastIndex : Nat) : AttrTokens :=
  getAttrTokensFrom lastIndex 0 sel

/-- The test `sel.includes('[') || sel.includes('*') || ... || sel.includes('~')`. -/
def hasRiskyChar (sel : Str) : Bool :=
  sel.contains '[' || sel.contains '*' || sel.contains ':' || sel.contains '>' ||
  sel.contains '+' || sel.contains '~'

/-- The closure `keepSelector(sel)` of `trimInlineCss`, called when
`attrTokenRe.lastIndex` is `lastIndex`: the verdict and the `lastIndex` it leaves. -/
def keepSelector (aggressive : Bool) (used : UsageSet) (sel : Str) (lastIndex : Nat) :
    Bool × Nat :=
  let attrTokens := getAttrTokens sel lastIndex
  if attrTokens.forceKeep && !aggressive then (true, attrTokens.lastIndex)
  else
    let classTokens := clsTokens sel ++ attrTokens.classTokens
    let idTokens := idTokens sel ++ attrTokens.idTokens
    if !aggressive && hasRiskyChar sel then (true, attrTokens.lastIndex)
    else if classTokens.isEmpty && idTokens.isEmpty then (true, attrTokens.lastIndex)
    else if classTokens.any (fun c => !used.classes.contains c) then (false, attrTokens.lastIndex)
    else if idTokens.any (fun i => !used.ids.contains i) then (false, attrTokens.lastIndex)
    else (true, attrTokens.lastIndex)

/-- The expression `rule.selector.split(',').map((s) => s.trim()).filter(Boolean)`. -/
def selectorList (selector : Str) : List Str :=
  ((splitOnChar ',' selector).map trim).filter (fun s => !s.isEmpty)

/-- The call `sels.filter(keepSelector)`: the selectors kept, in order, and the
`lastIndex` left after the last one. -/
def filterSelectors (aggressive : Bool) (used : UsageSet) : List Str → Nat → List Str × Nat
  | [], li => ([], li)
  | s :: ss, li =>
    let r := keepSelector aggressive used s li
    let rest := filterSelectors aggressive used ss r.2
    (if r.1 then s :: rest.1 else rest.1, rest.2)

mutual
/-- The visit of one node by `root.walkRules(...)` in `trimInlineCss`: `none` when
the node is removed.  A rule gets the callback first and is then walked into,
also when the callback has removed it (`Container.walk` of PostCSS calls
`child.walk` after the callback); an at-rule with a block is walked into. -/
def trimNode (aggressive : Bool) (used : UsageSet) : Node → Nat → Option Node × Nat
  | .rule selector nodes, li =>
    let kept := filterSelectors aggressive used (selectorList selector) li
    let inner := trimNodes aggressive used nodes kept.2
    if kept.1.isEmpty then (none, inner.2)
    else (some (.rule (", ".toList.intercalate kept.1) inner.1), inner.2)
  | .atrule name params (some nodes), li =>
    let inner := trimNodes aggressive used nodes li
    (some (.atrule name params (some inner.1)), inner.2)
  | .atrule name params none, li => (some (.atrule name params none), li)
  | .decl prop value, li => (some (.decl prop value), li)
  | .comment text, li => (some (.comment text), li)
/-- The visit of the children of a container, in order. -/
def trimNodes (aggressive : Bool) (used : UsageSet) : List Node → Nat → List Node × Nat
  | [], li => ([], li)
  | n :: ns, li =>
    let r := trimNode aggressive used n li
    let rest := trimNodes aggressive used ns r.2
    (match r.1 with
      | some n1 => n1 :: rest.1
      | none => rest.1, rest.2)
end

/-- The tree that `trimInlineCss` stringifies: the parsed root after
`root.walkRules(...)`, with a fresh `attrTokenRe` (`lastIndex = 0`). -/
def trimRoot (aggressive : Bool) (used : UsageSet) (root : List Node) : List Node :=
  (trimNodes aggressive used root 0).1

/-- The function `trimInlineCss(cssText, used, { aggressive })`. -/
def trimInlineCss (lib : CssLib) (cssText : Str) (used : UsageSet) (aggressive : Bool) : Str :=
  lib.stringify (trimRoot aggressive used (lib.parse cssText))

/-! ## `collectUsedSelectors` -/

/-- The assertion `\b` between the character `prev` before a position and the
character `next` at it (`none` at either end of the text). -/
def isWordBoundary (prev next : Option Char) : Bool :=
  (prev.map isWordChar).getD false != (next.map isWordChar).getD false

/-- The expressions `/\bclass\s*=\s*"([^"]*)"/i` (`name` is `class`, `allowEmpty`)
and `/\bid\s*=\s*"([^"]+)"/i` (`name` is `id`, the capture must not be empty),
anchored at the head of the text after the character `prev`: the capture and the
length of the match, which is the length of the text less the length of what is
left behind the closing quote.  The capture runs to the next double quote; no
shorter capture can be followed by a double quote. -/
def matchHtmlAttr (name : Str) (allowEmpty : Bool) (prev : Option Char) (s : Str) :
    Option (Str × Nat) :=
  if !isWordBoundary prev s.head? then none
  else match matchWordCI name s with
    | none => none
    | some (_, s1) =>
      match s1.dropWhile isSpace with
      | [] => none
      | e :: s2 =>
        if e == '=' then
          match s2.dropWhile isSpace with
          | [] => none
          | q :: s3 =>
            if q == dquote then
              match s3.dropWhile (fun x => x != dquote) with
              | [] => none
              | _ :: rest =>
                if (s3.takeWhile (fun x => x != dquote)).isEmpty && !allowEmpty then none
                else some (s3.takeWhile (fun x => x != dquote), s.length - rest.length)
            else none
        else none

/-- The values `m[1]` of the loop over `classRe` in `collectUsedSelectors`. -/
def classAttrValues (html : Str) : List Str :=
  scanAll (matchHtmlAttr "class".toList true) 0 none html

/-- The values `m[1]` of the loop over `idRe` in `collectUsedSelectors`. -/
def idAttrValues (html : Str) : List Str :=
  scanAll (matchHtmlAttr "id".toList false) 0 none html

/-- The function `collectUsedSelectors(html)`. -/
def collectUsedSelectors (html : Str) : UsageSet :=
  ⟨(classAttrValues html).flatMap spaceTokens,
   ((idAttrValues html).map trim).filter (fun id => !id.isEmpty)⟩

/-! ## `getDeep` and `localizeHtmlPlaceholders` -/

/-- A JavaScript value that the localiser can meet: the values of a parsed JSON
document, `undefined`, and a built-in function reached through a prototype
(`fn`, given by the text that `String` makes of it).  A number is given by its
decimal text, the text that `String` makes of it.  The fields of an object are
its own properties. -/
inductive JsVal where
  | undefined
  | null
  | bool (b : Bool)
  | num (text : Str)
  | str (s : Str)
  | arr (items : List JsVal)
  | obj (fields : List (Str × JsVal))
  | fn (source : Str)

/-- The test `v == null`. -/
def isNullish : JsVal → Bool
  | .undefined => true
  | .null => true
  | _ => false

/-- The truth value of a JavaScript value, as in `!json`. -/
def jsTruthy : JsVal → Bool
  | .undefined => false
  | .null => false
  | .bool b => b
  | .num text => text != "0".toList && text != "NaN".toList
  | .str s => !s.isEmpty
  | _ => true

/-- The digits of a number, least significant first; `fuel` bounds their
count. -/
def natDigitsRev : Nat → Nat → Str
  | 0, _ => []
  | fuel + 1, n =>
    Char.ofNat (48 + n % 10) :: (if n / 10 = 0 then [] else natDigitsRev fuel (n / 10))

/-- The decimal text of a natural number. -/
def natText (n : Nat) : Str := (natDigitsRev (n + 1) n).reverse

/-- The number denoted by a canonical array index (`0`, or digits without a
leading zero). -/
def parseIndex (p : Str) : Option Nat :=
  if p.isEmpty || !p.all Char.isDigit || (p.head? == some '0' && p.length != 1) then none
  else some (p.foldl (fun n c => 10 * n + (c.toNat - 48)) 0)

/-- The length of a string in UTF-16 code units. -/
def utf16Length (s : Str) : Nat :=
  (s.map unitLength).sum

/-- The property access `cur[p]` on a value that is neither `undefined` nor
`null`.  Own properties are looked up here: the fields of an object, the elements
and the `length` of an array, the `length` of a string.  Every other access (an
inherited property, such as a method or an accessor of a prototype, or a code
unit of a string by its index) is left to the parameter `ext`, which gives
`undefined` where JavaScript finds nothing and the message of the exception where
the access throws (the accessor `caller` of `Function.prototype`, reached by the
path `constructor.caller`, throws a `TypeError`). -/
def getProp (ext : JsVal → Str → Except Str JsVal) (cur : JsVal) (p : Str) : Except Str JsVal :=
  match cur with
  | .obj fields =>
    match fields.lookup p with
    | some v => .ok v
    | none => ext cur p
  | .arr items =>
    if p == "length".toList then .ok (.num (natText items.length))
    else match parseIndex p with
      | some i =>
        match items.get? i with
        | some v => .ok v
        | none => ext cur p
      | none => ext cur p
  | .str s =>
    if p == "length".toList then .ok (.num (natText (utf16Length s))) else ext cur p
  | _ => ext cur p

/-- The function `getDeep(obj, pathParts)`; an error is the exception of a
property access. -/
def getDeep (ext : JsVal → Str → Except Str JsVal) : JsVal → List Str → Except Str JsVal
  | cur, [] => .ok cur
  | cur, p :: ps =>
    if isNullish cur then .ok .undefined
    else match getProp ext cur p with
      | .error e => .error e
      | .ok next => getDeep ext next ps

/-- The message of the `TypeError` that `String` raises on an object that has no
callable `toString` and no `valueOf` giving a primitive. -/
def toPrimitiveError : Str := "Cannot convert object to primitive value".toList

mutual
/-- The conversion `String(val)`.  An array is joined with commas, `null` and
`undefined` elements giving the empty text.  An object parsed from JSON gives
`[object Object]` through the inherited `toString`, unless it has an own property
`toString`: that one is not callable, and `valueOf` gives no primitive, so the
conversion raises a `TypeError`. -/
def jsString : JsVal → Except Str Str
  | .undefined => .ok "undefined".toList
  | .null => .ok "null".toList
  | .bool b => .ok (if b then "true".toList else "false".toList)
  | .num text => .ok text
  | .str s => .ok s
  | .fn source => .ok source
  | .arr items => jsJoin items
  | .obj fields =>
    if (fields.lookup "toString".toList).isSome then .error toPrimitiveError
    else .ok "[object Object]".toList
/-- The method `Array.prototype.join` with the separator `,`. -/
def jsJoin : List JsVal → Except Str Str
  | [] => .ok []
  | x :: rest =>
    match (if isNullish x then Except.ok [] else jsString x) with
    | .error e => .error e
    | .ok a =>
      match rest with
      | [] => .ok a
      | _ :: _ =>
        match jsJoin rest with
        | .error e => .error e
        | .ok b => .ok (a ++ ',' :: b)
end

/-- A match of the placeholder expression: the whole match `m` and the two
captures. -/
structure TokenMatch where
  text : Str
  fileKey : Str
  keyPath : Str

/-- The class `[a-zA-Z0-9_.-]`. -/
def isPathChar (c : Char) : Bool := isTokChar c || c == '.'

/-- The opening `$` and two left braces of a placeholder. -/
def tokenOpen : Str := "$\x7b\x7b".toList

/-- The two right braces and closing `$` of a placeholder. -/
def tokenClose : Str := "\x7d\x7d$".toList

/-- A literal text at the head of the text: the rest behind it. -/
def matchLit (lit : Str) (s : Str) : Option Str :=
  if lit.isPrefixOf s then some (s.drop lit.length) else none

/-- The placeholder expression of `localizeHtmlPlaceholders`, that is the opening
`$` and two left braces, `\s*([a-zA-Z0-9_-]+)(?:\.([a-zA-Z0-9_.-]+))\s*`, two
right braces and `$`, anchored at the head of the text.  The file key is the
longest run before the first dot, the key path the longest run behind it; no
shorter run can be followed by what the expression asks next. -/
def matchToken (s : Str) : Option TokenMatch :=
  match matchLit tokenOpen s with
  | none => none
  | some s0 =>
    let s1 := s0.dropWhile isSpace
    let fileKey := s1.takeWhile isTokChar
    if fileKey.isEmpty then none
    else match s1.dropWhile isTokChar with
      | '.' :: s2 =>
        let keyPath := s2.takeWhile isPathChar
        if keyPath.isEmpty then none
        else
          let s3 := s2.dropWhile isPathChar
          match matchLit tokenClose (s3.dropWhile isSpace) with
          | none => none
          | some _ =>
            some ⟨s.take (3 + (s0.takeWhile isSpace).length + fileKey.length + 1
                    + keyPath.length + (s3.takeWhile isSpace).length + 3),
                  fileKey, keyPath⟩
      | _ => none

/-- The call `html.replace(re, callback)` with the global placeholder expression:
the text with every match, from left to right and without overlap, replaced by
what the callback returns; an exception of the callback ends the call.  `skip`
counts the characters of the last match still to pass. -/
def replaceTokens (callback : TokenMatch → Except Str Str) : Nat → Str → Except Str Str
  | _, [] => .ok []
  | k + 1, _ :: cs => replaceTokens callback k cs
  | 0, c :: cs =>
    match matchToken (c :: cs) with
    | some m =>
      match callback m with
      | .error e => .error e
      | .ok r =>
        match replaceTokens callback (m.text.length - 1) cs with
        | .error e => .error e
        | .ok rest => .ok (r ++ rest)
    | none =>
      match replaceTokens callback 0 cs with
      | .error e => .error e
      | .ok rest => .ok (c :: rest)

/-- The segments of the key path: `(keyPath || '').split('.').filter(Boolean)`. -/
def keyParts (keyPath : Str) : List Str :=
  (splitOnChar '.' keyPath).filter (fun p => !p.isEmpty)

/-- The callback of `localizeHtmlPlaceholders`.  The translation index is a
`Map`, given as the list of its entries. -/
def replacer (ext : JsVal → Str → Except Str JsVal) (translationIndex : List (Str × JsVal))
    (failOnMissing : Bool) (m : TokenMatch) : Except Str Str :=
  let json := (translationIndex.lookup m.fileKey).getD .undefined
  if !jsTruthy json then
    if failOnMissing then
      .error ("Missing translation file: ".toList ++ m.fileKey ++ ".json".toList)
    else .ok m.text
  else
    let parts := keyParts m.keyPath
    match (if parts.isEmpty then Except.ok JsVal.undefined else getDeep ext json parts) with
    | .error e => .error e
    | .ok val =>
      if isNullish val then
        if failOnMissing then
          .error ("Missing translation key: ".toList ++ m.fileKey ++ '.' :: m.keyPath)
        else .ok m.text
      else jsString val

/-- The function `localizeHtmlPlaceholders(html, translationIndex, { failOnMissing })`:
the localised text, or the message of the exception raised. -/
def localizeHtmlPlaceholders (ext : JsVal → Str → Except Str JsVal) (html : Str)
    (translationIndex : List (Str × JsVal)) (failOnMissing : Bool) : Except Str Str :=
  replaceTokens (replacer ext translationIndex failOnMissing) 0 html

/-- No match of `attrTokenRe` starts anywhere in the text. -/
def noAttrMatch : Str → Bool
  | [] => true
  | c :: cs => (matchAttr (c :: cs)).isNone && noAttrMatch cs

/-- The values of `attrTokenRe.lastIndex` at which `sels.filter(keepSelector)`
calls `keepSelector` on the successive selectors. -/
def selectorStates (aggressive : Bool) (used : UsageSet) : List Str → Nat → List Nat
  | [], _ => []
  | s :: ss, li => li :: selectorStates aggressive used ss (keepSelector aggressive used s li).2

/-- The test `node.type === 'decl'`. -/
def isDecl : Node → Bool
  | .decl _ _ => true
  | _ => false

/-- The text of a placeholder: the opening, white space, the file key, a dot,
the key path, white space and the closing. -/
def tokenText (ws1 fileKey keyPath ws2 : Str) : Str :=
  tokenOpen ++ (ws1 ++ (fileKey ++ '.' :: (keyPath ++ (ws2 ++ tokenClose))))

/-- Successive property descent in a JSON document, after the words of the
specification: each segment of the path must be a key of the object reached so
far, or the index of an element of the array reached so far; the descent is
undefined as soon as it is not. -/
def jsonDescend : JsVal → List Str → Option JsVal
  | v, [] => some v
  | .obj fields, p :: ps =>
    match fields.lookup p with
    | some v => jsonDescend v ps
    | none => none
  | .arr items, p :: ps =>
    match parseIndex p with
    | some i =>
      match items.get? i with
      | some v => jsonDescend v ps
      | none => none
    | none => none
  | _, _ :: _ => none

/-- The text is `name`, white space, `=`, white space and nothing more, without
regard to ASCII case: what the expressions of `collectUsedSelectors` ask between
the word boundary and the opening double quote. -/
def isAttrEq (name : Str) (b : Str) : Bool :=
  match matchWordCI name b with
  | none => false
  | some (_, s1) =>
    match s1.dropWhile isSpace with
    | [] => false
    | e :: s2 => e == '=' && (s2.dropWhile isSpace).isEmpty

/-- The text, which follows the character `prev`, ends in `name`, white space,
`=`, white space, with a word boundary before the name: an attribute `name` is
about to get its value. -/
def endsWithAttrEq (name : Str) : Option Char → Str → Bool
  | _, [] => false
  | prev, c :: cs =>
    (isWordBoundary prev (some c) && isAttrEq name (c :: cs)) || endsWithAttrEq name (some c) cs

/-- A stretch of markup that ends with a double-quoted value: the text `pre`
before the opening double quote and the text `value` between the quotes. -/
structure QuotedChunk where
  pre : Str
  value : Str

/-- The markup made of stretches that each end with a double-quoted value,
followed by a last text. -/
def renderChunks : List QuotedChunk → Str → Str
  | [], tail => tail
  | ch :: chs, tail => ch.pre ++ dquote :: (ch.value ++ dquote :: renderChunks chs tail)

/-! ## `stripEmptyAtRules` and `buildHtmlVariant` -/

/-- The test `n.type === 'comment'`. -/
def isComment : Node → Bool
  | .comment _ => true
  | _ => false

/-- The test `n.type === 'rule'`. -/
def isRule : Node → Bool
  | .rule _ _ => true
  | _ => false

mutual
/-- The visit of one node by `root.walkAtRules(...)` in `stripEmptyAtRules`: `none`
when the node is removed.  On an at-rule the callback looks at `rule.nodes || []`
as they are then (an at-rule without a block has no `nodes`) and removes the
at-rule when none of them is other than a comment; the walk goes into the
children afterwards.  A rule is walked into and stays. -/
def stripNode : Node → Option Node
  | .atrule name params (some nodes) =>
    if nodes.any (fun n => !isComment n) then some (.atrule name params (some (stripNodes nodes)))
    else none
  | .atrule _ _ none => none
  | .rule selector nodes => some (.rule selector (stripNodes nodes))
  | .decl prop value => some (.decl prop value)
  | .comment text => some (.comment text)
/-- The visit of the children of a container, in order. -/
def stripNodes : List Node → List Node
  | [] => []
  | n :: ns =>
    match stripNode n with
    | some n1 => n1 :: stripNodes ns
    | none => stripNodes ns
end

/-- The function `stripEmptyAtRules(cssText)`. -/
def stripEmptyAtRules (lib : CssLib) (cssText : Str) : Str :=
  if cssText.isEmpty then cssText else lib.stringify (stripNodes (lib.parse cssText))

/-- The expression `parts.filter(Boolean).join(sep)` on a list of strings. -/
def joinTruthy (sep : Str) (parts : List Str) : Str :=
  sep.intercalate (parts.filter (fun p => !p.isEmpty))

/-- The call `htmlText.replace(/>\s+</g, '><')`: `skip` counts the characters of
the last match still to pass. -/
def collapseTagGaps : Nat → Str → Str
  | _, [] => []
  | k + 1, _ :: cs => collapseTagGaps k cs
  | 0, c :: cs =>
    if c == '>' && !(cs.takeWhile isSpace).isEmpty && (cs.dropWhile isSpace).head? == some '<'
    then '>' :: '<' :: collapseTagGaps ((cs.takeWhile isSpace).length + 1) cs
    else c :: collapseTagGaps 0 cs

/-- The function `minifyHtmlText(htmlText)` of `main`. -/
def minifyHtmlText (htmlText : Str) : Str :=
  if htmlText.isEmpty then htmlText else trim (collapseTagGaps 0 htmlText)

/-- What `buildHtmlVariant` closes over: the CSS library, the Pug renderer
`renderHtml(headCssFinal, prettyHtml)` as a function of the head CSS and the
`pretty` flag handed to Pug, the inliner `inlineHtml(html, inlineCssText)`, the
four compiled CSS texts, and the flags `--trimCss` and `--pretty`.  The renderer
and the inliner are total here: their failures, which end the build through
`die`, are not modelled. -/
structure BuildEnv where
  lib : CssLib
  render : Str → Bool → Str
  inline : Str → Str → Str
  headOnlyRaw : Str
  headCssRaw : Str
  headExtraRaw : Str
  inlineCssRaw : Str
  trimCss : Bool
  pretty : Bool

/-- The value of `buildHtmlVariant`. -/
structure Variant where
  html : Str
  headCssFinal : Str
  inlineCssFinal : Str

/-- The closure `minifySafe(css)` of `buildHtmlVariant`. -/
def minifySafe (lib : CssLib) (minifyHead : Bool) (css : Str) : Str :=
  if !minifyHead || css.isEmpty then css else (lib.minify css).getD css

/-- The function `buildHtmlVariant({ minifyHead, prettyHtml, minifyInline, minifyHtml })`;
`prettyHtml` is `none` when the caller leaves it out (`prettyHtml ?? argv.pretty`).
The logging of the sizes and the render inside the pruning branch, whose result
the render behind the branch replaces, are left out. -/
def buildHtmlVariant (env : BuildEnv) (minifyHead : Bool) (prettyHtml : Option Bool)
    (minifyInline minifyHtml : Bool) : Variant :=
  let headOnlyCss := minifySafe env.lib minifyHead env.headOnlyRaw
  let headCss := minifySafe env.lib minifyHead env.headCssRaw
  let headExtraCss := minifySafe env.lib minifyHead env.headExtraRaw
  let headCssFinal := joinTruthy "\n\n".toList [headOnlyCss, headCss, headExtraCss]
  let inlineCssFinal := joinTruthy "\n".toList [env.inlineCssRaw, headExtraCss]
  let inlineCssFinal :=
    if minifyInline && !inlineCssFinal.isEmpty then
      (env.lib.minify inlineCssFinal).getD inlineCssFinal
    else inlineCssFinal
  let prettyFlag := prettyHtml.getD env.pretty
  let html := env.render headCssFinal prettyFlag
  let used := collectUsedSelectors html
  let inlineCssFinal :=
    if env.trimCss then trimInlineCss env.lib inlineCssFinal used false else inlineCssFinal
  let headTrimTarget := joinTruthy "\n\n".toList [headCss, headExtraCss]
  let headCssFinal :=
    if env.trimCss && !headTrimTarget.isEmpty then
      stripEmptyAtRules env.lib
        (joinTruthy "\n\n".toList [headOnlyCss, trimInlineCss env.lib headTrimTarget used true])
    else headCssFinal
  let headCssFinal := stripEmptyAtRules env.lib headCssFinal
  let html := env.inline (env.render headCssFinal prettyFlag) inlineCssFinal
  let html := if minifyHtml then minifyHtmlText html else html
  ⟨html, headCssFinal, inlineCssFinal⟩

/-- The local `headTrimTarget` of `buildHtmlVariant`: the extracted head CSS and
the head-extra CSS, joined. -/
def headTrimTarget (env : BuildEnv) (minifyHead : Bool) : Str :=
  joinTruthy "\n\n".toList
    [minifySafe env.lib minifyHead env.headCssRaw, minifySafe env.lib minifyHead env.headExtraRaw]

/-- The head CSS of the first render of `buildHtmlVariant`: head-only, extracted
head and head-extra CSS, joined. -/
def firstHeadCss (env : BuildEnv) (minifyHead : Bool) : Str :=
  joinTruthy "\n\n".toList
    [minifySafe env.lib minifyHead env.headOnlyRaw, minifySafe env.lib minifyHead env.headCssRaw,
     minifySafe env.lib minifyHead env.headExtraRaw]

/-- The inline CSS of `buildHtmlVariant` before pruning: the extracted inline CSS
and the head-extra CSS, joined, and minified when `minifyInline` is set. -/
def firstInlineCss (env : BuildEnv) (minifyHead minifyInline : Bool) : Str :=
  if minifyInline &&
      !(joinTruthy "\n".toList
          [env.inlineCssRaw, minifySafe env.lib minifyHead env.headExtraRaw]).isEmpty then
    (env.lib.minify (joinTruthy "\n".toList
        [env.inlineCssRaw, minifySafe env.lib minifyHead env.headExtraRaw])).getD
      (joinTruthy "\n".toList [env.inlineCssRaw, minifySafe env.lib minifyHead env.headExtraRaw])
  else joinTruthy "\n".toList [env.inlineCssRaw, minifySafe env.lib minifyHead env.headExtraRaw]

/-- The usage set that `buildHtmlVariant` scans from its first render. -/
def firstUsage (env : BuildEnv) (minifyHead : Bool) (prettyHtml : Option Bool) : UsageSet :=
  collectUsedSelectors (env.render (firstHeadCss env minifyHead) (prettyHtml.getD env.pretty))

/-! ## The locale loop of `main` -/

/-- The flags of `argv` that `main` reads around the locale loop (`--trimCss` and
`--pretty` are in `BuildEnv`). -/
structure Argv where
  minifyCss : Bool
  base : Bool
  failOnMissing : Bool
  minifyHtml : Bool
  minifyAll : Bool

/-- What the locale loop works with: the closure of `buildHtmlVariant`, the
flags, the built-in properties for `getDeep`, the translation index of each
locale (`buildTranslationIndex(langDirAbs, locale)`) and `beautifyHtml`. -/
structure LocaleCtx where
  env : BuildEnv
  argv : Argv
  ext : JsVal → Str → Except Str JsVal
  index : Str → List (Str × JsVal)
  beautifyHtml : Str → Str

/-- The HTML of the compact variant, as `main` asks for it. -/
def compactHtml (ctx : LocaleCtx) : Str :=
  (buildHtmlVariant ctx.env (ctx.argv.minifyCss || ctx.argv.minifyAll) (some true)
    ctx.argv.minifyAll (ctx.argv.minifyHtml || ctx.argv.minifyAll)).html

/-- The HTML of the pretty variant, as `main` asks for it. -/
def prettyHtml (ctx : LocaleCtx) : Str :=
  (buildHtmlVariant ctx.env false (some true) false false).html

/-- The files written for one locale by `writeHtmlPair`: `index.html` and, with
`--pretty`, `index.pretty.html`. -/
structure LocaleOutput where
  locale : Str
  indexHtml : Str
  indexPrettyHtml : Option Str

/-- The outcome of the locale loop: the outputs written, in order, and the
message of `die` when the process has exited through it. -/
structure RunResult where
  written : List LocaleOutput
  died : Option Str

/-- The test `!s` on a variable that is `null` or a string. -/
def isFalsyText : Option Str → Bool
  | none => true
  | some s => s.isEmpty

/-- The message handed to `die` when the localisation of a locale raises; `e` is
the message of the exception (`e.message || e`: the exceptions of the localiser
all carry a message). -/
def localizationFailed (locale e : Str) : Str :=
  "Localization failed for locale ".toList ++ squote :: (locale ++ squote :: (": ".toList ++ e))

/-- The loop `for (const locale of locales)` of `main`, from the values of
`baseCompact` and `basePretty` that it finds.  `die` prints the message and ends
the process, so that nothing behind it runs.  The creation of directories and
the console output are left out. -/
def localeLoop (ctx : LocaleCtx) : Option Str → Option Str → List Str → RunResult
  | _, _, [] => ⟨[], none⟩
  | baseCompact, basePretty, locale :: rest =>
    let idx := ctx.index locale
    let baseCompact := if isFalsyText baseCompact then some (compactHtml ctx) else baseCompact
    let basePretty :=
      if ctx.env.pretty && isFalsyText basePretty then some (prettyHtml ctx) else basePretty
    match localizeHtmlPlaceholders ctx.ext (baseCompact.getD []) idx ctx.argv.failOnMissing with
    | .error e => ⟨[], some (localizationFailed locale e)⟩
    | .ok localized =>
      if ctx.env.pretty && !isFalsyText basePretty then
        match localizeHtmlPlaceholders ctx.ext (basePretty.getD []) idx
            ctx.argv.failOnMissing with
        | .error e => ⟨[], some (localizationFailed locale e)⟩
        | .ok localizedPretty =>
          ⟨⟨locale, localized, some (ctx.beautifyHtml localizedPretty)⟩
              :: (localeLoop ctx baseCompact basePretty rest).written,
            (localeLoop ctx baseCompact basePretty rest).died⟩
      else
        ⟨⟨locale, localized,
            if ctx.env.pretty then some (ctx.beautifyHtml (basePretty.getD [])) else none⟩
            :: (localeLoop ctx baseCompact basePretty rest).written,
          (localeLoop ctx baseCompact basePretty rest).died⟩

/-- The part of `main` from the base variants on: with `--base` the compact
variant, and with `--pretty` the pretty one, are built before the loop.  The
writing of the base files is left out. -/
def runLocales (ctx : LocaleCtx) (locales : List Str) : RunResult :=
  localeLoop ctx (if ctx.argv.base then some (compactHtml ctx) else none)
    (if ctx.argv.base && ctx.env.pretty then some (prettyHtml ctx) else none) locales

/-- The output of one locale taken by itself: the localisation of the compact
variant, and with `--pretty` of the pretty variant, with the index of that
locale; the message of `die` when a localisation raises. -/
def localeOutput (ctx : LocaleCtx) (locale : Str) : Except Str LocaleOutput :=
  match localizeHtmlPlaceholders ctx.ext (compactHtml ctx) (ctx.index locale)
      ctx.argv.failOnMissing with
  | .error e => .error (localizationFailed locale e)
  | .ok localized =>
    if ctx.env.pretty && !(prettyHtml ctx).isEmpty then
      match localizeHtmlPlaceholders ctx.ext (prettyHtml ctx) (ctx.index locale)
          ctx.argv.failOnMissing with
      | .error e => .error (localizationFailed locale e)
      | .ok localizedPretty => .ok ⟨locale, localized, some (ctx.beautifyHtml localizedPretty)⟩
    else
      .ok ⟨locale, localized,
        if ctx.env.pretty then some (ctx.beautifyHtml (prettyHtml ctx)) else none⟩

/-- The outputs written up to the first failure, and that failure. -/
def collectOutputs : List (Except Str LocaleOutput) → RunResult
  | [] => ⟨[], none⟩
  | .error e :: _ => ⟨[], some e⟩
  | .ok o :: rest => ⟨o :: (collectOutputs rest).written, (collectOutputs rest).died⟩

/-- The files of a locale after the run: what the last `writeHtmlPair` into the
directory of the locale has written, `none` when there was none. -/
def outputOf (r : RunResult) (locale : Str) : Option LocaleOutput :=
  (r.written.filter (fun o => o.locale == locale)).getLast?

/-- A small build for the examples: a template with the one placeholder
`nav.title`, no CSS, no pruning, no pretty output, an inliner that has nothing to
inline. -/
def sampleCtx (failOnMissing : Bool) (index : Str → List (Str × JsVal)) : LocaleCtx :=
  ⟨⟨⟨fun _ => [], fun _ => [], fun _ => none⟩,
      fun _ _ => "<p>$\x7b\x7b nav.title \x7d\x7d$</p>".toList, fun html _ => html,
      [], [], [], [], false, false⟩,
    ⟨false, false, failOnMissing, false, false⟩, fun _ _ => .ok JsVal.undefined, index,
    fun s => s⟩

/-- The translations of the examples: `de`, `es` and `it` have `nav.json` with a
title, `en` has `nav.json` without the key `title`, `ja` has a title that is an
object with an own key `toString`, every other locale has no file. -/
def sampleIndex (locale : Str) : List (Str × JsVal) :=
  if locale = "de".toList then [("nav".toList, JsVal.obj [("title".toList, JsVal.str "Hallo".toList)])]
  else if locale = "es".toList then
    [("nav".toList, JsVal.obj [("title".toList, JsVal.str "Hola".toList)])]
  else if locale = "it".toList then
    [("nav".toList, JsVal.obj [("title".toList, JsVal.str "Ciao".toList)])]
  else if locale = "en".toList then [("nav".toList, JsVal.obj [])]
  else if locale = "ja".toList then
    [("nav".toList, JsVal.obj [("title".toList,
      JsVal.obj [("toString".toList, JsVal.num "1".toList)])])]
  else []

/-! ## `resolvePath` of the preview server (`src/tools/serve-dist.js`) -/

/-- One step of the segment loop of `path.posix.normalize`: empty segments and
`.` are dropped; `..` removes the segment before it, and where there is none
(or it is itself `..`) it stays only in a relative path.  The segments are kept
in reverse order. -/
def normalizeStep (allowAboveRoot : Bool) (acc : List Str) (seg : Str) : List Str :=
  if seg.isEmpty || seg = ".".toList then acc
  else if seg = "..".toList then
    match acc with
    | [] => if allowAboveRoot then [seg] else []
    | top :: below =>
      if top = "..".toList then (if allowAboveRoot then seg :: acc else acc) else below
  else seg :: acc

/-- The function `path.normalize` of Node.js on a POSIX system. -/
def posixNormalize (p : Str) : Str :=
  if p.isEmpty then ".".toList
  else
    let isAbsolute := p.head? = some '/'
    let trailingSeparator := p.getLast? = some '/'
    let segs := ((splitOnChar '/' p).foldl (normalizeStep (!isAbsolute)) []).reverse
    let body := "/".toList.intercalate segs
    if body.isEmpty then
      if isAbsolute then "/".toList else if trailingSeparator then "./".toList else ".".toList
    else
      let body := if trailingSeparator then body ++ "/".toList else body
      if isAbsolute then '/' :: body else body

/-- The function `path.join` of Node.js on a POSIX system. -/
def posixJoin (parts : List Str) : Str :=
  match parts.filter (fun a => !a.isEmpty) with
  | [] => ".".toList
  | ps => posixNormalize ("/".toList.intercalate ps)

/-- What `resolvePath` reads of a `fs.Stats`. -/
structure FileStat where
  isDirectory : Bool
  isFile : Bool

/-- The surroundings of `resolvePath`: the constant `DIST_ROOT`, the flag
`argv.preferPretty`, the built-in `decodeURIComponent` (an error when it throws
its `URIError`) and the file system as `safeStat` sees it (`none` for its
`null`). -/
structure ServeEnv where
  DIST_ROOT : Str
  preferPretty : Bool
  decodeURIComponent : Str → Except Str Str
  safeStat : Str → Option FileStat

/-- The index file that `resolvePath` answers for the directory `abs`. -/
def resolveIndex (env : ServeEnv) (abs : Str) : Option Str :=
  let pretty := posixJoin [abs, "index.pretty.html".toList]
  let compact := posixJoin [abs, "index.html".toList]
  let cst :=
    match env.safeStat compact with
    | some cst => if cst.isFile then some compact else none
    | none => none
  if env.preferPretty then
    match env.safeStat pretty with
    | some pst => if pst.isFile then some pretty else cst
    | none => cst
  else cst

/-- The function `resolvePath(reqPath)`; `none` is its `null`, an error the
exception of `decodeURIComponent`. -/
def resolvePath (env : ServeEnv) (reqPath : Str) : Except Str (Option Str) :=
  match env.decodeURIComponent (if reqPath.isEmpty then "/".toList else reqPath) with
  | .error e => .error e
  | .ok p =>
    let p := if p.head? = some '/' then p else '/' :: p
    let abs := posixJoin [env.DIST_ROOT, p]
    let abs := posixNormalize abs
    if !(env.DIST_ROOT.isPrefixOf abs) then .ok none
    else
      match env.safeStat abs with
      | none => .ok none
      | some st => if st.isDirectory then .ok (resolveIndex env abs) else .ok (some abs)

/-- The confinement that the guard of `resolvePath` stands for: the path is the
directory `root` itself or lies below it. -/
def withinRoot (root p : Str) : Bool :=
  p == root || (root ++ "/".toList).isPrefixOf p

/-- A served tree for the examples: the root `/srv/dist` (also found by `stat`
with a slash behind it, as a request for `/` asks) with `index.html`, and
beside it the directory `/srv/dist-secret` with the files `x` and
`index.pretty.html`, and `/srv/other` with the file `x`; request paths without a
percent sign decode to themselves. -/
def sampleServeEnv : ServeEnv :=
  ⟨"/srv/dist".toList, true, fun s => if '%' ∈ s then .error "URIError".toList else .ok s,
    fun p =>
      if p = "/srv/dist".toList ∨ p = "/srv/dist/".toList ∨ p = "/srv/dist-secret".toList ∨
          p = "/srv/other".toList then
        some ⟨true, false⟩
      else if p = "/srv/dist/index.html".toList ∨ p = "/srv/dist-secret/x".toList ∨
          p = "/srv/dist-secret/index.pretty.html".toList ∨ p = "/srv/other/x".toList then
        some ⟨false, true⟩
      else none⟩

/-! ## Built-in properties for the examples -/

/-- The message of the `TypeError` that the accessors `caller` and `arguments`
of `Function.prototype` raise. -/
def restrictedPropertyError : Str :=
  ("'caller', 'callee', and 'arguments' properties may not be accessed on strict mode " ++
    "functions or the arguments objects for calls to them").toList

/-- The inherited properties that the examples meet: `constructor` of an object
parsed from JSON is the function `Object`; `caller` and `arguments` of a built-in
function are the accessors of `Function.prototype`, which throw a `TypeError`;
every other property that is not an own one is given as `undefined`. -/
def sampleExt (cur : JsVal) (p : Str) : Except Str JsVal :=
  match cur with
  | .obj _ =>
    if p = "constructor".toList then
      .ok (.fn "function Object() \x7b [native code] \x7d".toList)
    else .ok .undefined
  | .fn _ =>
    if p = "caller".toList ∨ p = "arguments".toList then .error restrictedPropertyError
    else .ok .undefined
  | _ => .ok .undefined

/-! # Theorems -/

/-! ### Lemmas on the partition -/

theorem splitNodes_foldl (root : List Node) (acc : List Node × List Node) :
    root.foldl splitStep acc
      = (acc.1 ++ root.filter isHeadNode, acc.2 ++ root.filter (fun n => !isHeadNode n)) := by
  induction root generalizing acc with
  | nil => simp
  | cons n ns ih =>
    rw [List.foldl_cons, ih]
    by_cases h : isHeadNode n = true
    · simp [splitStep, h]
    · simp [splitStep, h]

theorem splitNodes_eq_filter (root : List Node) :
    splitNodes root = (root.filter isHeadNode, root.filter (fun n => !isHeadNode n)) := by
  simp [splitNodes, splitNodes_foldl]

/-! ### Claims on `splitCss` -/

/-- C1: for every parsed source, the head and inline outputs of `splitCss` are
both subsequences of the top-level node list (relative order preserved), put
together they are a rearrangement of it (every node lands in an output, as
often as it occurs), and no node is in both. -/
theorem splitCss_partition (root : List Node) :
    (splitNodes root).1.Sublist root ∧ (splitNodes root).2.Sublist root ∧
    ((splitNodes root).1 ++ (splitNodes root).2).Perm root ∧
    (splitNodes root).1.length + (splitNodes root).2.length = root.length ∧
    ∀ n, ¬ (n ∈ (splitNodes root).1 ∧ n ∈ (splitNodes root).2) := by
  rw [splitNodes_eq_filter]
  refine ⟨List.filter_sublist _, List.filter_sublist _, ?_, ?_, ?_⟩
  · exact List.filter_append_perm isHeadNode root
  · have h := (List.filter_append_perm isHeadNode root).length_eq
    simpa using h
  · intro n ⟨h1, h2⟩
    simp only [List.mem_filter] at h1 h2
    simp [h1.2] at h2

/-- C2 (evaluation at the failing input): the at-rule `@-o-keyframes spin` is
sent to the inline output and the head output stays empty. -/
theorem splitCss_o_keyframes_inline :
    splitNodes [Node.atrule "-o-keyframes".toList "spin".toList
        (some [Node.rule "from".toList [Node.decl "opacity".toList "0".toList],
               Node.rule "to".toList [Node.decl "opacity".toList "1".toList]])]
      = ([], [Node.atrule "-o-keyframes".toList "spin".toList
        (some [Node.rule "from".toList [Node.decl "opacity".toList "0".toList],
               Node.rule "to".toList [Node.decl "opacity".toList "1".toList]])]) := by
  rfl

/-! ### Lemmas on `keepSelector` -/

theorem matchAttr_none_of_ne (c : Char) (cs : Str) (h : c ≠ '[') : matchAttr (c :: cs) = none := by
  simp [matchAttr, h]

theorem getAttrTokensFrom_of_noAttrMatch (s : Str) (h : noAttrMatch s = true) (skip pos : Nat) :
    getAttrTokensFrom skip pos s = ⟨[], [], false, 0⟩ := by
  induction s generalizing skip pos with
  | nil => cases skip <;> simp [getAttrTokensFrom]
  | cons c cs ih =>
    simp only [noAttrMatch, Bool.and_eq_true, Option.isNone_iff_eq_none] at h
    cases skip with
    | succ k => simp only [getAttrTokensFrom]; exact ih h.2 _ _
    | zero => simp only [getAttrTokensFrom, h.1]; exact ih h.2 0 _

theorem noAttrMatch_of_not_mem (s : Str) (h : '[' ∉ s) : noAttrMatch s = true := by
  induction s with
  | nil => rfl
  | cons c cs ih =>
    simp only [List.mem_cons, not_or] at h
    simp only [noAttrMatch, Bool.and_eq_true, Option.isNone_iff_eq_none]
    exact ⟨matchAttr_none_of_ne c cs (fun e => h.1 e.symm), ih h.2⟩

theorem hasRiskyChar_eq_true_iff (sel : Str) :
    hasRiskyChar sel = true ↔
      ('[' ∈ sel ∨ '*' ∈ sel ∨ ':' ∈ sel ∨ '>' ∈ sel ∨ '+' ∈ sel ∨ '~' ∈ sel) := by
  simp [hasRiskyChar, or_assoc]

theorem any_not_contains_eq_false (l u : List Str) :
    l.any (fun c => !u.contains c) = false ↔ ∀ c ∈ l, c ∈ u := by
  simp [List.any_eq_false]

/-- The verdict of `keepSelector` in terms of the tokens, when neither the
forced keep nor the keep for a risky character applies. -/
theorem keepSelector_by_tokens (aggressive : Bool) (used : UsageSet) (sel : Str) (li : Nat)
    (h1 : ((getAttrTokens sel li).forceKeep && !aggressive) = false)
    (h2 : (!aggressive && hasRiskyChar sel) = false) :
    ((keepSelector aggressive used sel li).1 = true ↔
      (∀ c ∈ clsTokens sel ++ (getAttrTokens sel li).classTokens, c ∈ used.classes) ∧
      (∀ i ∈ idTokens sel ++ (getAttrTokens sel li).idTokens, i ∈ used.ids)) := by
  unfold keepSelector
  simp only [h1, h2, Bool.false_eq_true, if_false]
  generalize clsTokens sel ++ (getAttrTokens sel li).classTokens = cs
  generalize idTokens sel ++ (getAttrTokens sel li).idTokens = is
  rw [← any_not_contains_eq_false cs, ← any_not_contains_eq_false is]
  by_cases he : (cs.isEmpty && is.isEmpty) = true
  · simp only [Bool.and_eq_true, List.isEmpty_iff] at he
    simp [he.1, he.2]
  · cases hc : cs.any (fun c => !used.classes.contains c) <;>
      cases hi : is.any (fun i => !used.ids.contains i) <;> simp [he]

theorem keepSelector_lastIndex (aggressive : Bool) (used : UsageSet) (sel : Str) (li : Nat) :
    (keepSelector aggressive used sel li).2 = (getAttrTokens sel li).lastIndex := by
  unfold keepSelector
  simp only []
  repeat' split
  all_goals rfl

theorem getAttrTokens_of_no_bracket (sel : Str) (h : '[' ∉ sel) (li : Nat) :
    getAttrTokens sel li = ⟨[], [], false, 0⟩ :=
  getAttrTokensFrom_of_noAttrMatch sel (noAttrMatch_of_not_mem sel h) li 0

/-- On a selector without any of the six risky characters the verdict is the
same in both modes and from every `lastIndex`: all class tokens and all id
tokens found by `clsRe` and `idRe` are in the usage set; `lastIndex` is left 0. -/
theorem keepSelector_simple (aggressive : Bool) (used : UsageSet) (sel : Str) (li : Nat)
    (h : hasRiskyChar sel = false) :
    ((keepSelector aggressive used sel li).1 = true ↔
      (∀ c ∈ clsTokens sel, c ∈ used.classes) ∧ (∀ i ∈ idTokens sel, i ∈ used.ids)) ∧
    (keepSelector aggressive used sel li).2 = 0 := by
  have hb : '[' ∉ sel := by
    intro hm
    have := (hasRiskyChar_eq_true_iff sel).2 (Or.inl hm)
    simp [h] at this
  have ha := getAttrTokens_of_no_bracket sel hb li
  refine ⟨?_, ?_⟩
  · have := keepSelector_by_tokens aggressive used sel li (by simp [ha]) (by simp [h])
    simpa [ha] using this
  · rw [keepSelector_lastIndex, ha]

/-! ### Lemmas on the walk -/

theorem filterSelectors_eq (aggressive : Bool) (used : UsageSet) (sels : List Str) (li : Nat) :
    (filterSelectors aggressive used sels li).1
      = ((sels.zip (selectorStates aggressive used sels li)).filter
          (fun p => (keepSelector aggressive used p.1 p.2).1)).map Prod.fst := by
  induction sels generalizing li with
  | nil => rfl
  | cons s ss ih =>
    simp only [filterSelectors, selectorStates, List.zip_cons_cons, List.filter_cons]
    cases hk : (keepSelector aggressive used s li).1
    · simpa using ih _
    · simpa using ih _

theorem trimNodes_decls (aggressive : Bool) (used : UsageSet) (nodes : List Node) (li : Nat) :
    (trimNodes aggressive used nodes li).1.filter isDecl = nodes.filter isDecl := by
  induction nodes generalizing li with
  | nil => simp [trimNodes]
  | cons n ns ih =>
    cases n with
    | rule selector inner =>
      simp only [trimNodes, trimNode]
      by_cases hk : (filterSelectors aggressive used (selectorList selector) li).1.isEmpty = true
      · simp only [hk, if_true]
        exact ih _
      · simp only [hk, Bool.false_eq_true, if_false, List.filter_cons, isDecl]
        exact ih _
    | atrule name params inner =>
      cases inner <;> simp [trimNodes, trimNode, isDecl, ih]
    | decl prop value => simp [trimNodes, trimNode, isDecl, ih]
    | comment text => simp [trimNodes, trimNode, isDecl, ih]


theorem filterSelectors_sublist (aggressive : Bool) (used : UsageSet) (sels : List Str)
    (li : Nat) : (filterSelectors aggressive used sels li).1.Sublist sels := by
  induction sels generalizing li with
  | nil => exact List.Sublist.refl _
  | cons s ss ih =>
    simp only [filterSelectors]
    split
    · exact (ih _).cons₂ s
    · exact (ih _).cons s

theorem trimNodes_decl_single (aggressive : Bool) (used : UsageSet) (prop value : Str)
    (li : Nat) :
    trimNodes aggressive used [Node.decl prop value] li = ([Node.decl prop value], li) := by
  simp [trimNodes, trimNode]

/-- A stylesheet of two rules with one selector each and one declaration each,
the first selector kept and the second dropped, is pruned to the first rule. -/
theorem trimRoot_keep_drop (aggressive : Bool) (used : UsageSet) (s1 s2 p1 v1 p2 v2 : Str)
    (hl1 : selectorList s1 = [s1]) (hl2 : selectorList s2 = [s2])
    (hk1 : ∀ li, keepSelector aggressive used s1 li = (true, 0))
    (hk2 : ∀ li, keepSelector aggressive used s2 li = (false, 0)) :
    trimRoot aggressive used [Node.rule s1 [Node.decl p1 v1], Node.rule s2 [Node.decl p2 v2]]
      = [Node.rule (", ".toList.intercalate [s1]) [Node.decl p1 v1]] := by
  simp [trimRoot, trimNodes, trimNode, hl1, hl2, filterSelectors, hk1, hk2]

/-! ### Claims on `trimInlineCss` -/

/-- C3 (evaluation at the failing inputs): with an empty usage set, aggressive
pruning drops the selectors `a[href$=".pdf"]` and `a[href="#top"]` and removes
their rules, at top level and inside `@media`, and pruning in either mode drops
the keyframe step `33.3%` and removes its rule from the `@keyframes` block; none
of these selectors names a class or an id. -/
theorem trimInlineCss_drops_tokenless_selector :
    (keepSelector true ⟨[], []⟩ "a[href$=\".pdf\"]".toList 0).1 = false ∧
    (keepSelector true ⟨[], []⟩ "a[href=\"#top\"]".toList 0).1 = false ∧
    (keepSelector false ⟨[], []⟩ "33.3%".toList 0).1 = false ∧
    (keepSelector true ⟨[], []⟩ "33.3%".toList 0).1 = false ∧
    trimRoot true ⟨[], []⟩
        [Node.rule "a[href$=\".pdf\"]".toList [Node.decl "color".toList "red".toList]] = [] ∧
    trimRoot true ⟨[], []⟩
        [Node.atrule "media".toList "(max-width:600px)".toList
          (some [Node.rule "a[href=\"#top\"]".toList [Node.decl "color".toList "red".toList]])]
      = [Node.atrule "media".toList "(max-width:600px)".toList (some [])] ∧
    trimRoot false ⟨[], []⟩
        [Node.atrule "keyframes".toList "k".toList
          (some [Node.rule "33.3%".toList [Node.decl "opacity".toList "0".toList]])]
      = [Node.atrule "keyframes".toList "k".toList (some [])] ∧
    trimRoot true ⟨[], []⟩
        [Node.atrule "keyframes".toList "k".toList
          (some [Node.rule "33.3%".toList [Node.decl "opacity".toList "0".toList]])]
      = [Node.atrule "keyframes".toList "k".toList (some [])] := by
  refine ⟨by decide, by decide, by decide, by decide, by rfl, by rfl, by rfl, by rfl⟩

/-- C4 (evaluation at the failing input): the selector text `:is(.a, .b)` is one
selector, which `split(',')` cuts into the two pieces `:is(.a` and `.b)`.  With
the class `a` used and the class `b` not, the piece `:is(.a` is kept and the
piece `.b)`, which holds none of the six risky characters, is dropped, in either
mode, so that the rule stays with the selector `:is(.a`, which is none of its
selectors; likewise `a:not(.x, .y)` with only `x` used becomes `a:not(.x`.  On
the group `.a, .b` the rule is rewritten to `.a`. -/
theorem trimInlineCss_splits_inside_selector :
    selectorList ":is(.a, .b)".toList = [":is(.a".toList, ".b)".toList] ∧
    ((keepSelector false ⟨["a".toList], []⟩ ":is(.a".toList 0).1 = true ∧
      (keepSelector false ⟨["a".toList], []⟩ ".b)".toList 0).1 = false) ∧
    (∀ aggressive : Bool, trimRoot aggressive ⟨["a".toList], []⟩
        [Node.rule ":is(.a, .b)".toList [Node.decl "color".toList "red".toList]]
      = [Node.rule ":is(.a".toList [Node.decl "color".toList "red".toList]]) ∧
    (∀ aggressive : Bool, trimRoot aggressive ⟨["x".toList], []⟩
        [Node.rule "a:not(.x, .y)".toList [Node.decl "color".toList "red".toList]]
      = [Node.rule "a:not(.x".toList [Node.decl "color".toList "red".toList]]) ∧
    (∀ aggressive : Bool, trimRoot aggressive ⟨["a".toList], []⟩
        [Node.rule ".a, .b".toList [Node.decl "color".toList "red".toList]]
      = [Node.rule ".a".toList [Node.decl "color".toList "red".toList]]) := by
  refine ⟨by decide, ⟨by decide, by decide⟩, ?_, ?_, ?_⟩ <;> intro aggressive <;>
    cases aggressive <;> rfl

/-- The visit of a rule in terms of the pieces of `selectorList`: in either mode
and from every `lastIndex`, the pieces kept are those on which `keepSelector`
answered true, a subsequence of the pieces in their order; the rule is removed
if and only if none is kept; otherwise it stays as a rule whose selector is the
kept pieces joined with a comma and a blank and whose declarations are those of
the original rule. -/
theorem trimInlineCss_rule (aggressive : Bool) (used : UsageSet) (selector : Str)
    (nodes : List Node) (li : Nat) :
    (filterSelectors aggressive used (selectorList selector) li).1
      = (((selectorList selector).zip
            (selectorStates aggressive used (selectorList selector) li)).filter
          (fun p => (keepSelector aggressive used p.1 p.2).1)).map Prod.fst ∧
    (filterSelectors aggressive used (selectorList selector) li).1.Sublist
      (selectorList selector) ∧
    ((trimNode aggressive used (.rule selector nodes) li).1 = none ↔
      (filterSelectors aggressive used (selectorList selector) li).1 = []) ∧
    ((filterSelectors aggressive used (selectorList selector) li).1 ≠ [] →
      ∃ nodes1, (trimNode aggressive used (.rule selector nodes) li).1
          = some (.rule (", ".toList.intercalate
              (filterSelectors aggressive used (selectorList selector) li).1) nodes1) ∧
        nodes1.filter isDecl = nodes.filter isDecl) := by
  refine ⟨filterSelectors_eq aggressive used _ li,
    filterSelectors_sublist aggressive used _ li, ?_, ?_⟩
  · simp only [trimNode]
    by_cases hk : (filterSelectors aggressive used (selectorList selector) li).1 = []
    · simp [hk]
    · simp [hk]
  · intro hk
    refine ⟨(trimNodes aggressive used nodes
      (filterSelectors aggressive used (selectorList selector) li).2).1, ?_,
      trimNodes_decls aggressive used nodes _⟩
    simp [trimNode, hk]

/-- C5 (evaluation at the failing input): the page `<p class="héro">x</p>` uses
the class `héro`, and the scan finds it; the selector `.héro` has none of the
six risky characters and names that one class, but `clsRe` takes the token `h`
from it, which is not among the scanned classes, so that in either mode the
selector is dropped and the rule removed.  The same holds for the id `#größe`
with `id="größe"` on the page. -/
theorem trimInlineCss_drops_used_class :
    (collectUsedSelectors "<p class=\"héro\">x</p>".toList).classes = ["héro".toList] ∧
    (hasRiskyChar ".héro".toList = false ∧ clsTokens ".héro".toList = ["h".toList]) ∧
    (∀ aggressive : Bool,
      (keepSelector aggressive (collectUsedSelectors "<p class=\"héro\">x</p>".toList)
        ".héro".toList 0).1 = false) ∧
    (∀ aggressive : Bool,
      trimRoot aggressive (collectUsedSelectors "<p class=\"héro\">x</p>".toList)
        [Node.rule ".héro".toList [Node.decl "color".toList "red".toList]] = []) ∧
    ((collectUsedSelectors "<p id=\"größe\">x</p>".toList).ids = ["größe".toList] ∧
      idTokens "#größe".toList = ["gr".toList] ∧
      ∀ aggressive : Bool,
        trimRoot aggressive (collectUsedSelectors "<p id=\"größe\">x</p>".toList)
          [Node.rule "#größe".toList [Node.decl "color".toList "red".toList]] = []) := by
  refine ⟨by rfl, ⟨by decide, by decide⟩, ?_, ?_, by rfl, by decide, ?_⟩ <;>
    intro aggressive <;> cases aggressive <;> rfl

/-- The verdict on a selector without `[`, `*`, `:`, `>`, `+`, `~` in terms of
the tokens that `clsRe` and `idRe` extract: for every HTML the selector is kept,
in either mode, if and only if every token that `clsRe` finds in it is among the
scanned classes and every token that `idRe` finds in it is among the scanned
ids; and when the scan finds the class `hero` and not the class `unused`, the
stylesheet `.hero{color:red} .unused{color:blue}` is pruned to exactly
`.hero{color:red}`. -/
theorem prune_simple_selectors (html : Str) :
    (∀ (sel : Str) (aggressive : Bool) (li : Nat), hasRiskyChar sel = false →
      ((keepSelector aggressive (collectUsedSelectors html) sel li).1 = true ↔
        (∀ c ∈ clsTokens sel, c ∈ (collectUsedSelectors html).classes) ∧
        (∀ i ∈ idTokens sel, i ∈ (collectUsedSelectors html).ids))) ∧
    ("hero".toList ∈ (collectUsedSelectors html).classes →
      "unused".toList ∉ (collectUsedSelectors html).classes →
      ∀ aggressive : Bool, trimRoot aggressive (collectUsedSelectors html)
          [Node.rule ".hero".toList [Node.decl "color".toList "red".toList],
           Node.rule ".unused".toList [Node.decl "color".toList "blue".toList]]
        = [Node.rule ".hero".toList [Node.decl "color".toList "red".toList]]) := by
  refine ⟨fun sel aggressive li h => (keepSelector_simple aggressive _ sel li h).1, ?_⟩
  intro hh hu aggressive
  have h1 : ∀ li, keepSelector aggressive (collectUsedSelectors html) ".hero".toList li
      = (true, 0) := by
    intro li
    have hs := keepSelector_simple aggressive (collectUsedSelectors html) ".hero".toList li
      (by decide)
    have hc : clsTokens ".hero".toList = ["hero".toList] := by decide
    have hi : idTokens ".hero".toList = [] := by decide
    rw [hc, hi] at hs
    exact Prod.ext (hs.1.2 ⟨by simpa using hh, by simp⟩) hs.2
  have h2 : ∀ li, keepSelector aggressive (collectUsedSelectors html) ".unused".toList li
      = (false, 0) := by
    intro li
    have hs := keepSelector_simple aggressive (collectUsedSelectors html) ".unused".toList li
      (by decide)
    have hc : clsTokens ".unused".toList = ["unused".toList] := by decide
    have hi : idTokens ".unused".toList = [] := by decide
    rw [hc, hi] at hs
    refine Prod.ext ?_ hs.2
    cases hv : (keepSelector aggressive (collectUsedSelectors html) ".unused".toList li).1
    · rfl
    · exact absurd ((hs.1.1 hv).1 _ (by simp)) hu
  exact trimRoot_keep_drop aggressive _ _ _ _ _ _ _ (by decide) (by decide) h1 h2

/-- The example of the specification: with the usage scanned from `<div class="hero">x</div>`
the stylesheet `.hero{color:red} .unused{color:blue}` is pruned to exactly
`.hero{color:red}`. -/
theorem prune_simple_selectors_example :
    trimRoot false (collectUsedSelectors "<div class=\"hero\">x</div>".toList)
        [Node.rule ".hero".toList [Node.decl "color".toList "red".toList],
         Node.rule ".unused".toList [Node.decl "color".toList "blue".toList]]
      = [Node.rule ".hero".toList [Node.decl "color".toList "red".toList]] :=
  (prune_simple_selectors "<div class=\"hero\">x</div>".toList).2 (by decide) (by decide) false

/-- C6: in conservative mode, for every usage set and from every `lastIndex`, a
selector that contains one of `[`, `*`, `:`, `>`, `+`, `~` is kept. -/
theorem keepSelector_conservative_risky (used : UsageSet) (sel : Str) (li : Nat)
    (h : '[' ∈ sel ∨ '*' ∈ sel ∨ ':' ∈ sel ∨ '>' ∈ sel ∨ '+' ∈ sel ∨ '~' ∈ sel) :
    (keepSelector false used sel li).1 = true := by
  have hr := (hasRiskyChar_eq_true_iff sel).2 h
  unfold keepSelector
  simp only [hr, Bool.not_false, Bool.and_true, Bool.true_and]
  split <;> simp

/-- C6 at the selector of the specification: `[data-x^="y"] .a` is kept in
conservative mode whether or not the class `a` is used. -/
theorem keepSelector_conservative_risky_example :
    (keepSelector false ⟨[], []⟩ "[data-x^=\"y\"] .a".toList 0).1 = true ∧
    (keepSelector false ⟨["a".toList], []⟩ "[data-x^=\"y\"] .a".toList 0).1 = true :=
  ⟨keepSelector_conservative_risky _ _ 0 (by decide),
   keepSelector_conservative_risky _ _ 0 (by decide)⟩

/-- C7 (evaluation at the failing input): in aggressive mode with an empty usage
set the selector `[class="t"]` is dropped, since the class `t` is not used; the
selector `[class^="x"][class="t"]` is kept, because the loop of `getAttrTokens`
breaks at the operator `^=` and never extracts `t`, so that the selector counts
as having no token; with the two attributes in the other order `t` is extracted
before the break and the selector is dropped.  The rule of the kept selector
stays in the stylesheet.  The selector `[data-x^="y"] .a` of the specification,
in which the expression of `getAttrTokens` matches nothing, is dropped. -/
theorem keepSelector_aggressive_break :
    (keepSelector true ⟨[], []⟩ "[class=\"t\"]".toList 0).1 = false ∧
    ((getAttrTokens "[class^=\"x\"][class=\"t\"]".toList 0).classTokens = [] ∧
      (getAttrTokens "[class^=\"x\"][class=\"t\"]".toList 0).forceKeep = true ∧
      (keepSelector true ⟨[], []⟩ "[class^=\"x\"][class=\"t\"]".toList 0).1 = true) ∧
    (keepSelector true ⟨[], []⟩ "[class=\"t\"][class^=\"x\"]".toList 0).1 = false ∧
    trimRoot true ⟨[], []⟩
        [Node.rule "[class^=\"x\"][class=\"t\"]".toList
          [Node.decl "color".toList "red".toList]]
      = [Node.rule "[class^=\"x\"][class=\"t\"]".toList
          [Node.decl "color".toList "red".toList]] ∧
    (keepSelector true ⟨[], []⟩ "[data-x^=\"y\"] .a".toList 0).1 = false := by
  refine ⟨by decide, ⟨by decide, by decide, by decide⟩, by decide, by rfl, by decide⟩

/-- The verdict in aggressive mode in terms of the tokens that the code extracts
(the captures of `clsRe` and `idRe` and what `getAttrTokens` gives from the
`lastIndex` it finds): for every usage set, every selector and every `lastIndex`
the selector is kept if and only if all of them are in the usage set; and
`[data-x^="y"] .a` is dropped exactly when the class `a` is not in the usage
set. -/
theorem keepSelector_aggressive_tokens :
    (∀ (used : UsageSet) (sel : Str) (li : Nat),
      ((keepSelector true used sel li).1 = true ↔
        (∀ c ∈ clsTokens sel ++ (getAttrTokens sel li).classTokens, c ∈ used.classes) ∧
        (∀ i ∈ idTokens sel ++ (getAttrTokens sel li).idTokens, i ∈ used.ids))) ∧
    ((getAttrTokens "[class^=\"x\"] .a".toList 0).forceKeep = true ∧
      (keepSelector true ⟨[], []⟩ "[class^=\"x\"] .a".toList 0).1 = false) ∧
    (∀ (used : UsageSet) (li : Nat),
      ((keepSelector true used "[data-x^=\"y\"] .a".toList li).1 = false ↔
        "a".toList ∉ used.classes)) := by
  refine ⟨fun used sel li => keepSelector_by_tokens true used sel li (by simp) (by simp),
    ⟨by decide, by decide⟩, ?_⟩
  intro used li
  have ht := keepSelector_by_tokens true used "[data-x^=\"y\"] .a".toList li (by simp) (by simp)
  have ha : getAttrTokens "[data-x^=\"y\"] .a".toList li = ⟨[], [], false, 0⟩ :=
    getAttrTokensFrom_of_noAttrMatch _ (by decide) li 0
  have hc : clsTokens "[data-x^=\"y\"] .a".toList = ["a".toList] := by decide
  have hi : idTokens "[data-x^=\"y\"] .a".toList = [] := by decide
  rw [ha, hc, hi] at ht
  simp only [List.append_nil, List.mem_singleton, forall_eq, List.not_mem_nil, false_imp_iff,
    implies_true, and_true] at ht
  rw [← ht]
  cases (keepSelector true used "[data-x^=\"y\"] .a".toList li).1 <;> simp

/-! ### Lemmas on characters and on the placeholder expression -/

theorem char_le_iff (a b : Char) : a ≤ b ↔ a.toNat ≤ b.toNat := Iff.rfl

theorem char_eq_iff (a b : Char) : a = b ↔ a.toNat = b.toNat := by
  constructor
  · intro h; rw [h]
  · intro h
    apply Char.ext
    apply UInt32.ext
    exact h

theorem isTokChar_iff (c : Char) : isTokChar c = true ↔
    (c.toNat = 95 ∨ (97 ≤ c.toNat ∧ c.toNat ≤ 122) ∨ (65 ≤ c.toNat ∧ c.toNat ≤ 90) ∨
      (48 ≤ c.toNat ∧ c.toNat ≤ 57) ∨ c.toNat = 45) := by
  simp only [isTokChar, Bool.or_eq_true, Bool.and_eq_true, decide_eq_true_eq, beq_iff_eq,
    char_le_iff, char_eq_iff]
  simp [or_assoc]
  
theorem isSpace_iff (c : Char) : isSpace c = true ↔
    (c.toNat = 9 ∨ c.toNat = 10 ∨ c.toNat = 11 ∨ c.toNat = 12 ∨ c.toNat = 13 ∨ c.toNat = 32 ∨
      c.toNat = 160 ∨ c.toNat = 5760 ∨ (8192 ≤ c.toNat ∧ c.toNat ≤ 8202) ∨ c.toNat = 8232 ∨
      c.toNat = 8233 ∨ c.toNat = 8239 ∨ c.toNat = 8287 ∨ c.toNat = 12288 ∨ c.toNat = 65279) := by
  simp [isSpace, or_assoc]

theorem isSpace_of_isTokChar {c : Char} (h : isTokChar c = true) : isSpace c = false := by
  rw [isTokChar_iff] at h
  cases hs : isSpace c
  · rfl
  · rw [isSpace_iff] at hs
    omega

theorem isPathChar_of_isSpace {c : Char} (h : isSpace c = true) : isPathChar c = false := by
  cases hp : isPathChar c
  · rfl
  · simp only [isPathChar, Bool.or_eq_true, beq_iff_eq] at hp
    rcases hp with hp | hp
    · rw [isSpace_of_isTokChar hp] at h; exact absurd h (by simp)
    · subst hp; exact absurd h (by decide)

theorem takeWhile_append_stop {p : Char → Bool} (xs : Str) (y : Char) (ys : Str)
    (hx : ∀ c ∈ xs, p c = true) (hy : p y = false) :
    (xs ++ y :: ys).takeWhile p = xs := by
  rw [List.takeWhile_append_of_pos hx, List.takeWhile_cons_of_neg (by simp [hy])]
  simp

theorem dropWhile_append_stop {p : Char → Bool} (xs : Str) (y : Char) (ys : Str)
    (hx : ∀ c ∈ xs, p c = true) (hy : p y = false) :
    (xs ++ y :: ys).dropWhile p = y :: ys := by
  rw [List.dropWhile_append_of_pos hx, List.dropWhile_cons_of_neg (by simp [hy])]

theorem replaceTokens_skip (f : TokenMatch → Except Str Str) (xs rest : Str) :
    replaceTokens f xs.length (xs ++ rest) = replaceTokens f 0 rest := by
  induction xs with
  | nil => rfl
  | cons x xs ih => simpa [replaceTokens] using ih

theorem matchLit_append (lit rest : Str) : matchLit lit (lit ++ rest) = some rest := by
  simp [matchLit]

theorem tokenClose_eq : tokenClose = Char.ofNat 125 :: Char.ofNat 125 :: ['$'] := by decide

theorem matchToken_tokenText (ws1 fileKey keyPath ws2 post : Str)
    (hws1 : ∀ c ∈ ws1, isSpace c = true) (hws2 : ∀ c ∈ ws2, isSpace c = true)
    (hfk : fileKey ≠ []) (hfkc : ∀ c ∈ fileKey, isTokChar c = true)
    (hkp : keyPath ≠ []) (hkpc : ∀ c ∈ keyPath, isPathChar c = true) :
    matchToken (tokenText ws1 fileKey keyPath ws2 ++ post)
      = some ⟨tokenText ws1 fileKey keyPath ws2, fileKey, keyPath⟩ := by
  obtain ⟨f, fs, rfl⟩ := List.exists_cons_of_ne_nil hfk
  have hf : isSpace f = false := isSpace_of_isTokChar (hfkc f (by simp))
  -- what follows the key path starts with a character outside the path class
  obtain ⟨y, ys, hys, hy⟩ : ∃ y ys, ws2 ++ (tokenClose ++ post) = y :: ys ∧ isPathChar y = false := by
    cases ws2 with
    | nil => exact ⟨Char.ofNat 125, Char.ofNat 125 :: '$' :: post, by simp [tokenClose_eq], by decide⟩
    | cons w ws => exact ⟨w, _, rfl, isPathChar_of_isSpace (hws2 w (by simp))⟩
  have hs : tokenText ws1 (f :: fs) keyPath ws2 ++ post
      = tokenOpen ++ (ws1 ++ (f :: fs ++ '.' :: (keyPath ++ (ws2 ++ (tokenClose ++ post))))) := by
    simp [tokenText]
  have e1 : (ws1 ++ (f :: fs ++ '.' :: (keyPath ++ (ws2 ++ (tokenClose ++ post))))).dropWhile isSpace
      = f :: fs ++ '.' :: (keyPath ++ (ws2 ++ (tokenClose ++ post))) :=
    dropWhile_append_stop ws1 f _ hws1 hf
  have e1t : (ws1 ++ (f :: fs ++ '.' :: (keyPath ++ (ws2 ++ (tokenClose ++ post))))).takeWhile isSpace
      = ws1 := takeWhile_append_stop ws1 f _ hws1 hf
  have e2 : (f :: fs ++ '.' :: (keyPath ++ (ws2 ++ (tokenClose ++ post)))).takeWhile isTokChar
      = f :: fs := takeWhile_append_stop (f :: fs) '.' _ hfkc (by decide)
  have e2d : (f :: fs ++ '.' :: (keyPath ++ (ws2 ++ (tokenClose ++ post)))).dropWhile isTokChar
      = '.' :: (keyPath ++ (ws2 ++ (tokenClose ++ post))) :=
    dropWhile_append_stop (f :: fs) '.' _ hfkc (by decide)
  have e3 : (keyPath ++ (ws2 ++ (tokenClose ++ post))).takeWhile isPathChar = keyPath := by
    rw [hys]; exact takeWhile_append_stop keyPath y ys hkpc hy
  have e3d : (keyPath ++ (ws2 ++ (tokenClose ++ post))).dropWhile isPathChar
      = ws2 ++ (tokenClose ++ post) := by
    rw [hys]; exact dropWhile_append_stop keyPath y ys hkpc hy
  have e4 : (ws2 ++ (tokenClose ++ post)).dropWhile isSpace = tokenClose ++ post := by
    rw [tokenClose_eq]; exact dropWhile_append_stop ws2 _ _ hws2 (by decide)
  have e4t : (ws2 ++ (tokenClose ++ post)).takeWhile isSpace = ws2 := by
    rw [tokenClose_eq]; exact takeWhile_append_stop ws2 _ _ hws2 (by decide)
  have hlen : 3 + ws1.length + (f :: fs).length + 1 + keyPath.length + ws2.length + 3
      = (tokenText ws1 (f :: fs) keyPath ws2).length := by
    simp [tokenText, tokenOpen, tokenClose]
    omega
  have hk : keyPath.isEmpty = false := by cases keyPath <;> simp_all
  unfold matchToken
  rw [hs, matchLit_append]
  simp only [e1, e1t, e2, e2d, e3, e3d, e4, e4t, matchLit_append, hk, List.isEmpty_cons,
    Bool.false_eq_true, if_false]
  rw [← hs, hlen, List.take_left]


theorem tokenOpen_eq : tokenOpen = '$' :: Char.ofNat 123 :: [Char.ofNat 123] := by decide

theorem matchToken_none_of_not_prefix (s : Str) (h : ¬ tokenOpen <+: s) : matchToken s = none := by
  have : tokenOpen.isPrefixOf s = false := by
    cases hp : tokenOpen.isPrefixOf s
    · rfl
    · exact absurd (List.isPrefixOf_iff_prefix.1 hp) h
  simp [matchToken, matchLit, this]

/-- No placeholder starts inside a text without the opening, also when a text
that is empty or starts with `$` follows it. -/
theorem no_tokenOpen_straddle (pre rest : Str) (hpre : ¬ tokenOpen <:+: pre)
    (hrest : rest = [] ∨ ∃ r, rest = '$' :: r) (b : Str) (hb : b ≠ []) (hsuf : b <:+ pre) :
    ¬ tokenOpen <+: (b ++ rest) := by
  intro hp
  rw [tokenOpen_eq] at hp hpre
  match b, hb with
  | [x], _ =>
    rcases hrest with rfl | ⟨r, rfl⟩
    · simpa using hp.length_le
    · have := hp
      simp only [List.singleton_append, List.cons_prefix_cons] at this
      exact absurd this.2.1 (by decide)
  | [x, y], _ =>
    rcases hrest with rfl | ⟨r, rfl⟩
    · simpa using hp.length_le
    · have := hp
      simp only [List.cons_append, List.nil_append, List.cons_prefix_cons] at this
      exact absurd this.2.2.1 (by decide)
  | x :: y :: z :: b', _ =>
    have := hp
    simp only [List.cons_append, List.cons_prefix_cons] at this
    obtain ⟨rfl, rfl, rfl, -⟩ := this
    apply hpre
    obtain ⟨t, ht⟩ := hsuf
    exact ⟨t, b', by simpa using ht⟩

theorem replaceTokens_no_match (f : TokenMatch → Except Str Str) (pre rest : Str)
    (h : ∀ b, b ≠ [] → b <:+ pre → matchToken (b ++ rest) = none) :
    replaceTokens f 0 (pre ++ rest) = (replaceTokens f 0 rest).map (fun out => pre ++ out) := by
  induction pre with
  | nil =>
    simp only [List.nil_append]
    cases replaceTokens f 0 rest <;> rfl
  | cons c cs ih =>
    have hc := h (c :: cs) (by simp) (List.suffix_refl _)
    have ih' := ih (fun b hb hs => h b hb (hs.trans (List.suffix_cons c cs)))
    simp only [List.cons_append] at hc ⊢
    simp only [replaceTokens, hc, ih']
    cases replaceTokens f 0 rest <;> rfl

theorem replaceTokens_at_match (f : TokenMatch → Except Str Str) (t post : Str) (m : TokenMatch)
    (hm : matchToken (t ++ post) = some m) (ht : m.text = t) (hne : t ≠ []) :
    replaceTokens f 0 (t ++ post)
      = (f m).bind (fun r => (replaceTokens f 0 post).map (fun out => r ++ out)) := by
  obtain ⟨c, cs, rfl⟩ := List.exists_cons_of_ne_nil hne
  simp only [List.cons_append] at hm ⊢
  simp only [replaceTokens, hm, ht, List.length_cons, Nat.add_sub_cancel, replaceTokens_skip]
  cases f m with
  | error e => rfl
  | ok r => cases replaceTokens f 0 post <;> rfl

theorem getDeep_of_jsonDescend (ext : JsVal → Str → Except Str JsVal) (parts : List Str)
    (doc v : JsVal) (h : jsonDescend doc parts = some v) : getDeep ext doc parts = .ok v := by
  induction parts generalizing doc with
  | nil => simpa [jsonDescend, getDeep] using h
  | cons p ps ih =>
    cases doc with
    | obj fields =>
      simp only [jsonDescend] at h
      cases hl : fields.lookup p with
      | none => simp [hl] at h
      | some w =>
        simp only [hl] at h
        simp [getDeep, isNullish, getProp, hl, ih w h]
    | arr items =>
      simp only [jsonDescend] at h
      cases hi : parseIndex p with
      | none => simp [hi] at h
      | some i =>
        simp only [hi, List.get?_eq_getElem?] at h
        cases hg : items[i]? with
        | none => simp [hg] at h
        | some w =>
          simp only [hg] at h
          have hlen : p ≠ "length".toList := by
            intro hpl
            have hn : parseIndex "length".toList = none := by decide
            rw [hpl, hn] at hi
            cases hi
          simp only [getDeep, isNullish, getProp, Bool.false_eq_true, if_false, hi,
            List.get?_eq_getElem?, hg, beq_iff_eq, hlen]
          exact ih w h
    | undefined => simp [jsonDescend] at h
    | null => simp [jsonDescend] at h
    | bool b => simp [jsonDescend] at h
    | num t => simp [jsonDescend] at h
    | str s => simp [jsonDescend] at h
    | fn s => simp [jsonDescend] at h

theorem jsTruthy_of_jsonDescend (doc v : JsVal) (p : Str) (ps : List Str)
    (h : jsonDescend doc (p :: ps) = some v) : jsTruthy doc = true := by
  cases doc <;> simp [jsonDescend] at h <;> rfl


theorem replacer_resolved (ext : JsVal → Str → Except Str JsVal) (index : List (Str × JsVal))
    (failOnMissing : Bool) (text fileKey keyPath : Str) (doc v : JsVal)
    (hidx : index.lookup fileKey = some doc) (hparts : keyParts keyPath ≠ [])
    (hres : jsonDescend doc (keyParts keyPath) = some v) (hv : isNullish v = false) :
    replacer ext index failOnMissing ⟨text, fileKey, keyPath⟩ = jsString v := by
  obtain ⟨p, ps, hp⟩ := List.exists_cons_of_ne_nil hparts
  have ht : jsTruthy doc = true := jsTruthy_of_jsonDescend doc v p ps (hp ▸ hres)
  have hg := getDeep_of_jsonDescend ext _ doc v hres
  have he : (keyParts keyPath).isEmpty = false := by simp [hp]
  simp [replacer, hidx, ht, he, hg, hv]

mutual
theorem jsString_error (v : JsVal) (e : Str) (h : jsString v = .error e) :
    e = toPrimitiveError := by
  match v with
  | .undefined => simp [jsString] at h
  | .null => simp [jsString] at h
  | .bool b => simp [jsString] at h
  | .num t => simp [jsString] at h
  | .str s => simp [jsString] at h
  | .fn s => simp [jsString] at h
  | .arr items => exact jsJoin_error items e (by simpa [jsString] using h)
  | .obj fields =>
    simp only [jsString] at h
    split at h
    · exact (Except.error.inj h).symm
    · cases h
theorem jsJoin_error (items : List JsVal) (e : Str) (h : jsJoin items = .error e) :
    e = toPrimitiveError := by
  match items with
  | [] => simp [jsJoin] at h
  | x :: rest =>
    simp only [jsJoin] at h
    by_cases hx : isNullish x = true
    · simp only [hx, if_true] at h
      cases rest with
      | nil => simp at h
      | cons y ys =>
        simp only at h
        cases hj : jsJoin (y :: ys) with
        | error e2 =>
          rw [hj] at h
          simp only [Except.error.injEq] at h
          exact h ▸ jsJoin_error (y :: ys) e2 hj
        | ok b => rw [hj] at h; simp at h
    · simp only [hx, Bool.false_eq_true, if_false] at h
      cases hs : jsString x with
      | error e1 =>
        rw [hs] at h
        simp only [Except.error.injEq] at h
        exact h ▸ jsString_error x e1 hs
      | ok a =>
        rw [hs] at h
        cases rest with
        | nil => simp at h
        | cons y ys =>
          simp only at h
          cases hj : jsJoin (y :: ys) with
          | error e2 =>
            rw [hj] at h
            simp only [Except.error.injEq] at h
            exact h ▸ jsJoin_error (y :: ys) e2 hj
          | ok b => rw [hj] at h; simp at h
end

theorem replaceTokens_error (f : TokenMatch → Except Str Str) (s : Str) (k : Nat) (e : Str)
    (h : replaceTokens f k s = .error e) : ∃ m, f m = .error e := by
  induction s generalizing k with
  | nil => cases k <;> simp [replaceTokens] at h
  | cons c cs ih =>
    cases k with
    | succ k => exact ih k (by simpa [replaceTokens] using h)
    | zero =>
      simp only [replaceTokens] at h
      split at h
      · rename_i m hm
        split at h
        · rename_i e1 he1
          exact ⟨m, by rw [he1]; exact h⟩
        · split at h
          · rename_i e2 he2
            exact ih _ (by rw [he2]; exact h)
          · cases h
      · split at h
        · rename_i e2 he2
          exact ih _ (by rw [he2]; exact h)
        · cases h


/-- One step of the localiser: a text without the opening of a placeholder is
passed unchanged, the placeholder behind it is handed to the callback, and the
text behind the placeholder is localised on its own. -/
theorem localize_token_step (ext : JsVal → Str → Except Str JsVal) (index : List (Str × JsVal))
    (failOnMissing : Bool) (pre ws1 fileKey keyPath ws2 post : Str)
    (hpre : ¬ tokenOpen <:+: pre)
    (hws1 : ∀ c ∈ ws1, isSpace c = true) (hws2 : ∀ c ∈ ws2, isSpace c = true)
    (hfk : fileKey ≠ []) (hfkc : ∀ c ∈ fileKey, isTokChar c = true)
    (hkp : keyPath ≠ []) (hkpc : ∀ c ∈ keyPath, isPathChar c = true) :
    localizeHtmlPlaceholders ext (pre ++ (tokenText ws1 fileKey keyPath ws2 ++ post)) index
        failOnMissing
      = (replacer ext index failOnMissing ⟨tokenText ws1 fileKey keyPath ws2, fileKey, keyPath⟩).bind
          (fun r => (localizeHtmlPlaceholders ext post index failOnMissing).map
            (fun out => pre ++ (r ++ out))) := by
  have hm := matchToken_tokenText ws1 fileKey keyPath ws2 post hws1 hws2 hfk hfkc hkp hkpc
  have hne : tokenText ws1 fileKey keyPath ws2 ≠ [] := by simp [tokenText, tokenOpen_eq]
  have hstart : ∃ r, tokenText ws1 fileKey keyPath ws2 ++ post = '$' :: r :=
    ⟨_, by simp [tokenText, tokenOpen_eq]; rfl⟩
  unfold localizeHtmlPlaceholders
  rw [replaceTokens_no_match _ pre _ (fun b hb hs =>
      matchToken_none_of_not_prefix _ (no_tokenOpen_straddle pre _ hpre (Or.inr hstart) b hb hs)),
    replaceTokens_at_match _ _ post _ hm rfl hne]
  cases replacer ext index failOnMissing ⟨tokenText ws1 fileKey keyPath ws2, fileKey, keyPath⟩ with
  | error e => rfl
  | ok r => cases replaceTokens (replacer ext index failOnMissing) 0 post <;> rfl

theorem localize_plain_text (ext : JsVal → Str → Except Str JsVal) (index : List (Str × JsVal))
    (failOnMissing : Bool) (t : Str) (ht : ¬ tokenOpen <:+: t) :
    localizeHtmlPlaceholders ext t index failOnMissing = .ok t := by
  have h := replaceTokens_no_match (replacer ext index failOnMissing) t [] (fun b hb hs =>
    matchToken_none_of_not_prefix _ (no_tokenOpen_straddle t [] ht (Or.inl rfl) b hb hs))
  simp only [List.append_nil] at h
  unfold localizeHtmlPlaceholders
  rw [h]
  simp [replaceTokens, Except.map]

theorem keyPath_ne_nil_of_parts (keyPath : Str) (h : keyParts keyPath ≠ []) : keyPath ≠ [] := by
  rintro rfl
  exact h (by decide)

/-- C9: for every translation index and either setting of `failOnMissing`, a
placeholder whose file key is in the index and whose key path resolves, by
successive property descent in the JSON document of that file, to a value that
is neither absent nor null is replaced by the string form of that value; the
text before it, which holds no opening of a placeholder, is unchanged, and the
text behind it is localised on its own.  A text without the opening of a
placeholder is returned unchanged. -/
theorem localize_resolved_token (ext : JsVal → Str → Except Str JsVal) (index : List (Str × JsVal))
    (failOnMissing : Bool) (pre ws1 fileKey keyPath ws2 post : Str) (doc v : JsVal)
    (hpre : ¬ tokenOpen <:+: pre)
    (hws1 : ∀ c ∈ ws1, isSpace c = true) (hws2 : ∀ c ∈ ws2, isSpace c = true)
    (hfk : fileKey ≠ []) (hfkc : ∀ c ∈ fileKey, isTokChar c = true)
    (hkpc : ∀ c ∈ keyPath, isPathChar c = true)
    (hidx : index.lookup fileKey = some doc) (hparts : keyParts keyPath ≠ [])
    (hres : jsonDescend doc (keyParts keyPath) = some v) (hv : isNullish v = false) :
    localizeHtmlPlaceholders ext (pre ++ (tokenText ws1 fileKey keyPath ws2 ++ post)) index
        failOnMissing
      = (jsString v).bind (fun text =>
          (localizeHtmlPlaceholders ext post index failOnMissing).map
            (fun out => pre ++ (text ++ out))) ∧
    (∀ t : Str, ¬ tokenOpen <:+: t →
      localizeHtmlPlaceholders ext t index failOnMissing = .ok t) := by
  refine ⟨?_, fun t ht => localize_plain_text ext index failOnMissing t ht⟩
  rw [localize_token_step ext index failOnMissing pre ws1 fileKey keyPath ws2 post hpre hws1 hws2
      hfk hfkc (keyPath_ne_nil_of_parts keyPath hparts) hkpc,
    replacer_resolved ext index failOnMissing _ fileKey keyPath doc v hidx hparts hres hv]

/-- C9 at the example of the specification: with the index `nav: title: "Hello"`
the input `<p>`, placeholder `nav.title`, `</p>` becomes `<p>Hello</p>`. -/
theorem localize_resolved_token_example :
    localizeHtmlPlaceholders (fun _ _ => .ok JsVal.undefined)
        "<p>$\x7b\x7b nav.title \x7d\x7d$</p>".toList
        [("nav".toList, JsVal.obj [("title".toList, JsVal.str "Hello".toList)])] false
      = .ok "<p>Hello</p>".toList :=
  ((localize_resolved_token (fun _ _ => .ok JsVal.undefined)
      [("nav".toList, JsVal.obj [("title".toList, JsVal.str "Hello".toList)])] false
      "<p>".toList " ".toList "nav".toList "title".toList " ".toList "</p>".toList
      (JsVal.obj [("title".toList, JsVal.str "Hello".toList)]) (JsVal.str "Hello".toList)
      (by decide) (by decide) (by decide) (by decide) (by decide) (by decide) (by rfl)
      (by decide) (by rfl) (by rfl)).1).trans (by rfl)

/-- C10 (evaluation at the failing inputs): with `failOnMissing` off and the
index `nav: title: "Hello"`, the key path `title.length` leads to no value of
the JSON document (`length` is no key of an object reached), yet its placeholder
is replaced by `5`, the length of the string, whatever the inherited properties
are; with the index `nav: bad: toString: 1` the placeholder `nav.bad` makes the
localiser raise the `TypeError` of `String`; and with the index `nav:` (an empty
object) the placeholder `nav.constructor.caller` makes it raise the `TypeError`
of the accessor `caller`.  The placeholder `nav.missing` of the specification is
returned unchanged. -/
theorem localize_nonstrict_diverges :
    (jsonDescend (JsVal.obj [("title".toList, JsVal.str "Hello".toList)])
        (keyParts "title.length".toList) = none ∧
      ∀ ext : JsVal → Str → Except Str JsVal,
        localizeHtmlPlaceholders ext "$\x7b\x7b nav.title.length \x7d\x7d$".toList
          [("nav".toList, JsVal.obj [("title".toList, JsVal.str "Hello".toList)])] false
        = .ok "5".toList) ∧
    (∀ ext : JsVal → Str → Except Str JsVal,
      localizeHtmlPlaceholders ext "$\x7b\x7b nav.bad \x7d\x7d$".toList
        [("nav".toList, JsVal.obj [("bad".toList,
          JsVal.obj [("toString".toList, JsVal.num "1".toList)])])] false
      = .error toPrimitiveError) ∧
    localizeHtmlPlaceholders sampleExt "$\x7b\x7b nav.constructor.caller \x7d\x7d$".toList
        [("nav".toList, JsVal.obj [])] false
      = .error restrictedPropertyError ∧
    localizeHtmlPlaceholders sampleExt "$\x7b\x7b nav.missing \x7d\x7d$".toList
        [("nav".toList, JsVal.obj [("title".toList, JsVal.str "Hello".toList)])] false
      = .ok "$\x7b\x7b nav.missing \x7d\x7d$".toList :=
  ⟨⟨by rfl, fun _ => rfl⟩, fun _ => rfl, by rfl, by rfl⟩

/-! ### Lemmas on the usage scan -/

theorem isSpace_dquote : isSpace dquote = false := by decide

theorem scanAll_skip {α : Type} (m : Option Char → Str → Option (α × Nat)) (xs : Str) (y : Char)
    (rest : Str) (prev : Option Char) :
    scanAll m (xs.length + 1) prev (xs ++ y :: rest) = scanAll m 0 (some y) rest := by
  induction xs generalizing prev with
  | nil => simp [scanAll]
  | cons x xs ih => simpa [scanAll] using ih (some x)

theorem matchWordCI_split (name b w s1 : Str) (h : matchWordCI name b = some (w, s1)) :
    b = w ++ s1 := by
  induction name generalizing b w with
  | nil => simp [matchWordCI] at h; obtain ⟨rfl, rfl⟩ := h; rfl
  | cons p ps ih =>
    cases b with
    | nil => simp [matchWordCI] at h
    | cons c cs =>
      simp only [matchWordCI] at h
      split at h
      · cases hr : matchWordCI ps cs with
        | none => simp [hr] at h
        | some r =>
          obtain ⟨w1, r1⟩ := r
          simp only [hr, Option.some.injEq, Prod.mk.injEq] at h
          obtain ⟨rfl, rfl⟩ := h
          simp [ih cs w1 hr]
      · cases h

theorem matchWordCI_append (name b t : Str) (hname : dquote ∉ name) :
    matchWordCI name (b ++ dquote :: t)
      = (matchWordCI name b).map (fun r => (r.1, r.2 ++ dquote :: t)) := by
  induction name generalizing b with
  | nil => simp [matchWordCI]
  | cons p ps ih =>
    have hp : dquote ≠ p := fun e => hname (by simp [e])
    have hps : dquote ∉ ps := fun e => hname (by simp [e])
    cases b with
    | nil =>
      have : lowerAscii dquote = dquote := by decide
      simp [matchWordCI, this, hp]
    | cons c cs =>
      rw [List.cons_append]
      simp only [matchWordCI]
      split
      · rw [ih cs hps]
        cases matchWordCI ps cs with
        | none => rfl
        | some r => rfl
      · rfl

theorem dropWhile_append_of_ne_nil {p : Char → Bool} (l x : Str) (c : Char) (cs : Str)
    (h : l.dropWhile p = c :: cs) : (l ++ x).dropWhile p = c :: (cs ++ x) := by
  rw [List.dropWhile_append, h]
  simp

theorem dropWhile_append_of_nil {p : Char → Bool} (l x : Str) (h : l.dropWhile p = []) :
    (l ++ x).dropWhile p = x.dropWhile p := by
  rw [List.dropWhile_append, h]
  simp

theorem mem_of_dropWhile_eq_cons {p : Char → Bool} (l : Str) (c : Char) (cs : Str)
    (h : l.dropWhile p = c :: cs) : c ∈ l ∧ ∀ x ∈ cs, x ∈ l := by
  have hs : l.dropWhile p <:+ l := List.dropWhile_suffix p
  rw [h] at hs
  exact ⟨hs.subset (by simp), fun x hx => hs.subset (by simp [hx])⟩

/-- The expression of `collectUsedSelectors` at the head of a text whose first
double quote stands behind the non-empty text `b`: it matches exactly when `b`
is the attribute name and the equals sign at a word boundary, and a closing
quote follows. -/
theorem matchHtmlAttr_before_quote (name : Str) (allowEmpty : Bool) (prev : Option Char)
    (b t : Str) (hname : dquote ∉ name) (hb : b ≠ []) (hq : dquote ∉ b) :
    matchHtmlAttr name allowEmpty prev (b ++ dquote :: t)
      = if isWordBoundary prev b.head? && isAttrEq name b then
          (match t.dropWhile (fun x => x != dquote) with
            | [] => none
            | _ :: rest =>
              if (t.takeWhile (fun x => x != dquote)).isEmpty && !allowEmpty then none
              else some (t.takeWhile (fun x => x != dquote),
                (b ++ dquote :: t).length - rest.length))
        else none := by
  obtain ⟨c, cs, rfl⟩ := List.exists_cons_of_ne_nil hb
  unfold matchHtmlAttr isAttrEq
  rw [matchWordCI_append name (c :: cs) t hname]
  simp only [List.cons_append, List.head?_cons]
  by_cases hwb : isWordBoundary prev (some c) = true
  · simp only [hwb, Bool.not_true, Bool.false_eq_true, if_false, Bool.true_and]
    cases hm : matchWordCI name (c :: cs) with
    | none => simp
    | some r =>
      obtain ⟨w, s1⟩ := r
      have hsplit := matchWordCI_split name (c :: cs) w s1 hm
      have hq1 : dquote ∉ s1 := fun h => hq (by rw [hsplit]; simp [h])
      simp only [Option.map_some']
      by_cases h1 : s1.dropWhile isSpace = []
      · rw [dropWhile_append_of_nil s1 _ h1, List.dropWhile_cons_of_neg (by simp [isSpace_dquote])]
        have : (dquote == '=') = false := by decide
        simp [this, h1]
      · obtain ⟨e, s2, h1⟩ := List.exists_cons_of_ne_nil h1
        rw [dropWhile_append_of_ne_nil s1 _ e s2 h1]
        have hmem := mem_of_dropWhile_eq_cons s1 e s2 h1
        have hq2 : dquote ∉ s2 := fun h => hq1 (hmem.2 _ h)
        simp only [h1]
        by_cases he : (e == '=') = true
        · simp only [he, if_true, Bool.true_and]
          by_cases h2 : s2.dropWhile isSpace = []
          · rw [dropWhile_append_of_nil s2 _ h2,
              List.dropWhile_cons_of_neg (by simp [isSpace_dquote])]
            simp only [h2, beq_self_eq_true, if_true, List.isEmpty_nil]
          · obtain ⟨q, s3, h2⟩ := List.exists_cons_of_ne_nil h2
            rw [dropWhile_append_of_ne_nil s2 _ q s3 h2]
            have hq3 : q ≠ dquote := fun h =>
              hq2 (h ▸ (mem_of_dropWhile_eq_cons s2 q s3 h2).1)
            simp [hq3, h2]
        · simp [he]
  · simp [hwb]


theorem matchHtmlAttr_no_quote (name : Str) (allowEmpty : Bool) (prev : Option Char) (s : Str)
    (hq : dquote ∉ s) : matchHtmlAttr name allowEmpty prev s = none := by
  unfold matchHtmlAttr
  split
  · rfl
  · cases hm : matchWordCI name s with
    | none => rfl
    | some r =>
      obtain ⟨w, s1⟩ := r
      have hsplit := matchWordCI_split name s w s1 hm
      have hq1 : dquote ∉ s1 := fun h => hq (by rw [hsplit]; simp [h])
      simp only
      by_cases h1 : s1.dropWhile isSpace = []
      · simp [h1]
      · obtain ⟨e, s2, h1⟩ := List.exists_cons_of_ne_nil h1
        have hq2 : dquote ∉ s2 := fun h => hq1 ((mem_of_dropWhile_eq_cons s1 e s2 h1).2 _ h)
        simp only [h1]
        split
        · by_cases h2 : s2.dropWhile isSpace = []
          · simp [h2]
          · obtain ⟨q, s3, h2⟩ := List.exists_cons_of_ne_nil h2
            have hq3 : q ≠ dquote := fun h =>
              hq2 (h ▸ (mem_of_dropWhile_eq_cons s2 q s3 h2).1)
            simp [h2, hq3]
        · rfl

theorem matchHtmlAttr_at_quote (name : Str) (allowEmpty : Bool) (prev : Option Char) (t : Str)
    (hne : name ≠ []) (hname : dquote ∉ name) :
    matchHtmlAttr name allowEmpty prev (dquote :: t) = none := by
  obtain ⟨p, ps, rfl⟩ := List.exists_cons_of_ne_nil hne
  have hp : dquote ≠ p := fun e => hname (by simp [e])
  have hl : lowerAscii dquote = dquote := by decide
  unfold matchHtmlAttr
  split
  · rfl
  · simp [matchWordCI, hl, hp]

theorem scanAll_no_quote (name : Str) (allowEmpty : Bool) (s : Str) (prev : Option Char)
    (hq : dquote ∉ s) : scanAll (matchHtmlAttr name allowEmpty) 0 prev s = [] := by
  induction s generalizing prev with
  | nil => simp [scanAll]
  | cons c cs ih =>
    have hcs : dquote ∉ cs := fun h => hq (by simp [h])
    simp only [scanAll, matchHtmlAttr_no_quote name allowEmpty prev (c :: cs) hq]
    exact ih (some c) hcs

/-- The scan passes a quoted value that does not end in a dangling attribute
name and equals sign, and its closing quote, without a match. -/
theorem scanAll_value (name : Str) (allowEmpty : Bool) (v rest : Str) (prev : Option Char)
    (hne : name ≠ []) (hname : dquote ∉ name) (hq : dquote ∉ v)
    (hd : endsWithAttrEq name prev v = false) :
    scanAll (matchHtmlAttr name allowEmpty) 0 prev (v ++ dquote :: rest)
      = scanAll (matchHtmlAttr name allowEmpty) 0 (some dquote) rest := by
  induction v generalizing prev with
  | nil =>
    simp only [List.nil_append, scanAll, matchHtmlAttr_at_quote name allowEmpty prev rest hne hname]
  | cons c cs ih =>
    have hcs : dquote ∉ cs := fun h => hq (by simp [h])
    simp only [endsWithAttrEq, Bool.or_eq_false_iff] at hd
    have hm := matchHtmlAttr_before_quote name allowEmpty prev (c :: cs) rest hname (by simp) hq
    simp only [List.head?_cons, hd.1, Bool.false_eq_true, if_false] at hm
    simp only [List.cons_append] at hm ⊢
    simp only [scanAll, hm]
    exact ih (some c) hcs hd.2

/-- The scan over a stretch of markup that ends with a double-quoted value: the
value is captured exactly when the text before the opening quote ends in the
attribute name and the equals sign (and the value is not empty where the
expression asks for one character at least). -/
theorem scanAll_chunk (name : Str) (allowEmpty : Bool) (pre v rest : Str) (prev : Option Char)
    (hne : name ≠ []) (hname : dquote ∉ name) (hpre : dquote ∉ pre) (hq : dquote ∉ v)
    (hd : endsWithAttrEq name (some dquote) v = false) :
    scanAll (matchHtmlAttr name allowEmpty) 0 prev (pre ++ dquote :: (v ++ dquote :: rest))
      = (if endsWithAttrEq name prev pre && (allowEmpty || !v.isEmpty) then [v] else [])
          ++ scanAll (matchHtmlAttr name allowEmpty) 0 (some dquote) rest := by
  have htake : (v ++ dquote :: rest).takeWhile (fun x => x != dquote) = v :=
    takeWhile_append_stop v dquote rest (by
      intro c hc
      have : c ≠ dquote := fun e => hq (e ▸ hc)
      simp [this]) (by simp)
  have hdrop : (v ++ dquote :: rest).dropWhile (fun x => x != dquote) = dquote :: rest :=
    dropWhile_append_stop v dquote rest (by
      intro c hc
      have : c ≠ dquote := fun e => hq (e ▸ hc)
      simp [this]) (by simp)
  induction pre generalizing prev with
  | nil =>
    simp only [List.nil_append, endsWithAttrEq, Bool.false_and, Bool.false_eq_true, if_false]
    simp only [scanAll, matchHtmlAttr_at_quote name allowEmpty prev _ hne hname]
    exact scanAll_value name allowEmpty v rest (some dquote) hne hname hq hd
  | cons c cs ih =>
    have hcs : dquote ∉ cs := fun h => hpre (by simp [h])
    have hm := matchHtmlAttr_before_quote name allowEmpty prev (c :: cs)
      (v ++ dquote :: rest) hname (by simp) hpre
    rw [htake, hdrop] at hm
    simp only [List.head?_cons, List.cons_append] at hm
    rw [List.cons_append]
    simp only [scanAll, hm, endsWithAttrEq]
    by_cases h1 : (isWordBoundary prev (some c) && isAttrEq name (c :: cs)) = true
    · by_cases h2 : (v.isEmpty && !allowEmpty) = true
      · have h3 : (allowEmpty || !v.isEmpty) = false := by
          cases allowEmpty <;> cases hv : v.isEmpty <;> simp_all
        simp only [h1, h2, if_true, h3, Bool.and_false, Bool.false_eq_true, if_false,
          List.nil_append]
        rw [ih (some c) hcs]
        simp [h3]
      · have h3 : (allowEmpty || !v.isEmpty) = true := by
          cases allowEmpty <;> cases hv : v.isEmpty <;> simp_all
        simp only [h1, h2, if_true, Bool.false_eq_true, if_false, h3, Bool.true_or,
          Bool.and_self, List.singleton_append, List.cons.injEq, true_and]
        have hlen : (c :: (cs ++ dquote :: (v ++ dquote :: rest))).length - rest.length - 1
            = (cs ++ dquote :: v).length + 1 := by
          simp only [List.length_cons, List.length_append]
          omega
        rw [hlen]
        have := scanAll_skip (matchHtmlAttr name allowEmpty) (cs ++ dquote :: v) dquote rest
          (some c)
        simpa using this
    · simp only [h1, Bool.false_eq_true, if_false, Bool.false_or]
      exact ih (some c) hcs


theorem endsWithAttrEq_after_quote (name pre : Str) :
    endsWithAttrEq name (some dquote) pre = endsWithAttrEq name none pre := by
  have hw : isWordChar dquote = false := by decide
  cases pre with
  | nil => rfl
  | cons c cs => simp [endsWithAttrEq, isWordBoundary, hw]

/-- In markup whose double quotes pair up around values none of which ends in a
dangling attribute name and equals sign, the scan captures exactly the values
that stand behind the attribute name and the equals sign. -/
theorem scanAll_chunks (name : Str) (allowEmpty : Bool) (chunks : List QuotedChunk) (tail : Str)
    (prev : Option Char) (hprev : prev = none ∨ prev = some dquote)
    (hne : name ≠ []) (hname : dquote ∉ name)
    (hq : ∀ ch ∈ chunks, dquote ∉ ch.pre ∧ dquote ∉ ch.value ∧
      endsWithAttrEq name (some dquote) ch.value = false)
    (htail : dquote ∉ tail) :
    scanAll (matchHtmlAttr name allowEmpty) 0 prev (renderChunks chunks tail)
      = (chunks.filter (fun ch =>
          endsWithAttrEq name none ch.pre && (allowEmpty || !ch.value.isEmpty))).map
            (fun ch => ch.value) := by
  induction chunks generalizing prev with
  | nil => simpa [renderChunks] using scanAll_no_quote name allowEmpty tail prev htail
  | cons ch chs ih =>
    obtain ⟨h1, h2, h3⟩ := hq ch (by simp)
    have hrest := ih (some dquote) (Or.inr rfl) (fun x hx => hq x (by simp [hx]))
    have hp : endsWithAttrEq name prev ch.pre = endsWithAttrEq name none ch.pre := by
      rcases hprev with rfl | rfl
      · rfl
      · exact endsWithAttrEq_after_quote name ch.pre
    rw [renderChunks, scanAll_chunk name allowEmpty ch.pre ch.value _ prev hne hname h1 h2 h3,
      hrest, hp, List.filter_cons]
    split <;> simp

theorem trim_nil : trim [] = [] := by decide

/-- C8 (counterexample): the class `hero` of the single-quoted attribute in
`<p class='hero'>` is not among the scanned classes; neither is the class `hero`
of `<a title="class=" class="hero">`, where the match that starts in the title
takes the opening quote of the class attribute for its closing quote; and the
value of the attribute `id=" main "` is not among the scanned ids, which hold the
trimmed value. -/
theorem collectUsedSelectors_counterexample :
    "hero".toList ∉ (collectUsedSelectors "<p class=\x27hero\x27>".toList).classes ∧
    "hero".toList ∉
      (collectUsedSelectors "<a title=\"class=\" class=\"hero\">".toList).classes ∧
    " main ".toList ∉ (collectUsedSelectors "<p id=\" main \">".toList).ids := by
  decide

/-- C8 (amended): in markup whose double quotes pair up around values, none of
which ends in a dangling `class =` or `id =`, the scanned classes contain every
white-space-separated token of the value of every double-quoted `class` attribute
and the scanned ids contain the trimmed value of every double-quoted `id`
attribute whose value is not blank.  The scan is a total function: it returns on
every text. -/
theorem collectUsedSelectors_quoted (chunks : List QuotedChunk) (tail : Str)
    (hq : ∀ ch ∈ chunks, dquote ∉ ch.pre ∧ dquote ∉ ch.value)
    (htail : dquote ∉ tail)
    (hdangling : ∀ ch ∈ chunks,
      endsWithAttrEq "class".toList (some dquote) ch.value = false ∧
      endsWithAttrEq "id".toList (some dquote) ch.value = false) :
    (∀ ch ∈ chunks, endsWithAttrEq "class".toList none ch.pre = true →
      ∀ t ∈ spaceTokens ch.value,
        t ∈ (collectUsedSelectors (renderChunks chunks tail)).classes) ∧
    (∀ ch ∈ chunks, endsWithAttrEq "id".toList none ch.pre = true → trim ch.value ≠ [] →
      trim ch.value ∈ (collectUsedSelectors (renderChunks chunks tail)).ids) := by
  have hc := scanAll_chunks "class".toList true chunks tail none (Or.inl rfl) (by decide)
    (by decide) (fun ch h => ⟨(hq ch h).1, (hq ch h).2, (hdangling ch h).1⟩) htail
  have hi := scanAll_chunks "id".toList false chunks tail none (Or.inl rfl) (by decide)
    (by decide) (fun ch h => ⟨(hq ch h).1, (hq ch h).2, (hdangling ch h).2⟩) htail
  refine ⟨?_, ?_⟩
  · intro ch hch hpre t ht
    simp only [collectUsedSelectors, classAttrValues, hc, List.mem_flatMap, List.mem_map,
      List.mem_filter]
    exact ⟨ch.value, ⟨ch, ⟨hch, by rw [hpre]; rfl⟩, rfl⟩, ht⟩
  · intro ch hch hpre hv
    have hne : ch.value.isEmpty = false := by
      cases h : ch.value with
      | nil => rw [h, trim_nil] at hv; exact absurd rfl hv
      | cons c cs => rfl
    simp only [collectUsedSelectors, idAttrValues, hi, List.mem_filter, List.mem_map]
    refine ⟨⟨ch.value, ⟨ch, ⟨hch, by rw [hpre, hne]; rfl⟩, rfl⟩, rfl⟩, ?_⟩
    cases h : trim ch.value with
    | nil => exact absurd h hv
    | cons c cs => rfl

/-- C8 at a concrete page: in `<div class="hero big" id="main">x</div>` the scan
finds the classes `hero` and `big` and the id `main`. -/
theorem collectUsedSelectors_quoted_example :
    "hero".toList ∈
      (collectUsedSelectors "<div class=\"hero big\" id=\"main\">x</div>".toList).classes ∧
    "big".toList ∈
      (collectUsedSelectors "<div class=\"hero big\" id=\"main\">x</div>".toList).classes ∧
    "main".toList ∈
      (collectUsedSelectors "<div class=\"hero big\" id=\"main\">x</div>".toList).ids :=
  have h := collectUsedSelectors_quoted
    [⟨"<div class=".toList, "hero big".toList⟩, ⟨" id=".toList, "main".toList⟩]
    ">x</div>".toList (by decide) (by decide) (by decide)
  ⟨h.1 ⟨"<div class=".toList, "hero big".toList⟩ (by simp) (by decide) _ (by decide),
   h.1 ⟨"<div class=".toList, "hero big".toList⟩ (by simp) (by decide) _ (by decide),
   h.2 ⟨" id=".toList, "main".toList⟩ (by simp) (by decide) (by decide)⟩

/-! ### Strict mode and the single pass of the localiser -/

/-- The call of `replace` raises exactly the exception of the first match, in the
order of the text, on which the callback raises. -/
theorem replaceTokens_error_iff (f : TokenMatch → Except Str Str) (s : Str) (k : Nat)
    (prev : Option Char) (e : Str) :
    replaceTokens f k s = .error e ↔
      ∃ ms1 m ms2,
        scanAll (fun _ s => (matchToken s).map (fun m => (m, m.text.length))) k prev s
          = ms1 ++ m :: ms2 ∧
        (∀ x ∈ ms1, ∃ r, f x = .ok r) ∧ f m = .error e := by
  induction s generalizing k prev with
  | nil => cases k <;> simp [replaceTokens, scanAll]
  | cons c cs ih =>
    cases k with
    | succ k => simpa [replaceTokens, scanAll] using ih k (some c)
    | zero =>
      simp only [replaceTokens, scanAll]
      cases hm : matchToken (c :: cs) with
      | none =>
        simp only [Option.map_none']
        rw [← ih 0 (some c)]
        cases replaceTokens f 0 cs <;> simp
      | some m =>
        simp only [Option.map_some']
        cases hf : f m with
        | error e1 =>
          simp only [Except.error.injEq]
          constructor
          · rintro rfl
            exact ⟨[], m, _, rfl, by simp, hf⟩
          · rintro ⟨ms1, m1, ms2, heq, hok, herr⟩
            cases ms1 with
            | nil =>
              simp only [List.nil_append, List.cons.injEq] at heq
              rw [← heq.1, hf] at herr
              exact Except.error.inj herr
            | cons x xs =>
              simp only [List.cons_append, List.cons.injEq] at heq
              obtain ⟨r, hr⟩ := hok x (by simp)
              rw [← heq.1, hf] at hr
              cases hr
        | ok r =>
          have hrec := ih (m.text.length - 1) (some c)
          constructor
          · intro h
            have h1 : replaceTokens f (m.text.length - 1) cs = .error e := by
              cases hq : replaceTokens f (m.text.length - 1) cs with
              | error e2 => rw [hq] at h; exact h
              | ok b => rw [hq] at h; cases h
            obtain ⟨ms1, m1, ms2, heq, hok, herr⟩ := hrec.1 h1
            refine ⟨m :: ms1, m1, ms2, by rw [heq]; rfl, ?_, herr⟩
            intro x hx
            rcases List.mem_cons.1 hx with rfl | hx
            · exact ⟨r, hf⟩
            · exact hok x hx
          · rintro ⟨ms1, m1, ms2, heq, hok, herr⟩
            cases ms1 with
            | nil =>
              simp only [List.nil_append, List.cons.injEq] at heq
              rw [← heq.1, hf] at herr
              cases herr
            | cons x xs =>
              simp only [List.cons_append, List.cons.injEq] at heq
              have h1 := hrec.2 ⟨xs, m1, ms2, heq.2, fun y hy => hok y (by simp [hy]), herr⟩
              rw [h1]


/-- C11 (evaluation at the failing inputs): in strict mode, with the index
`nav: bad: toString: 1` the placeholder `nav.bad`, whose file and key are there,
makes the localiser raise the `TypeError` of `String`; with a file `nav.json`
that holds `null` or `""` the file key `nav` is in the index and the error for
`nav.title` names the file `nav.json`, not the key; with the index
`nav: title: "Hello"` the placeholder `nav.title.length`, whose key path leads to
no value of the JSON document, raises nothing and becomes `5`; and with the index
`nav:` (an empty object) the error for `nav.constructor.caller` is the
`TypeError` of the accessor `caller`, not the one that names the key.  The
placeholder `nav.missing` of the specification raises the error that names
`nav.missing`. -/
theorem localize_strict_diverges :
    (jsonDescend (JsVal.obj [("bad".toList,
          JsVal.obj [("toString".toList, JsVal.num "1".toList)])]) (keyParts "bad".toList)
        = some (JsVal.obj [("toString".toList, JsVal.num "1".toList)]) ∧
      ∀ ext : JsVal → Str → Except Str JsVal,
        localizeHtmlPlaceholders ext "$\x7b\x7b nav.bad \x7d\x7d$".toList
          [("nav".toList, JsVal.obj [("bad".toList,
            JsVal.obj [("toString".toList, JsVal.num "1".toList)])])] true
        = .error toPrimitiveError) ∧
    (∀ ext : JsVal → Str → Except Str JsVal,
      localizeHtmlPlaceholders ext "$\x7b\x7b nav.title \x7d\x7d$".toList
          [("nav".toList, JsVal.null)] true
        = .error "Missing translation file: nav.json".toList ∧
      localizeHtmlPlaceholders ext "$\x7b\x7b nav.title \x7d\x7d$".toList
          [("nav".toList, JsVal.str [])] true
        = .error "Missing translation file: nav.json".toList) ∧
    (jsonDescend (JsVal.obj [("title".toList, JsVal.str "Hello".toList)])
        (keyParts "title.length".toList) = none ∧
      ∀ ext : JsVal → Str → Except Str JsVal,
        localizeHtmlPlaceholders ext "$\x7b\x7b nav.title.length \x7d\x7d$".toList
          [("nav".toList, JsVal.obj [("title".toList, JsVal.str "Hello".toList)])] true
        = .ok "5".toList) ∧
    localizeHtmlPlaceholders sampleExt "$\x7b\x7b nav.constructor.caller \x7d\x7d$".toList
        [("nav".toList, JsVal.obj [])] true
      = .error restrictedPropertyError ∧
    localizeHtmlPlaceholders sampleExt "$\x7b\x7b nav.missing \x7d\x7d$".toList
        [("nav".toList, JsVal.obj [("title".toList, JsVal.str "Hello".toList)])] true
      = .error "Missing translation key: nav.missing".toList :=
  ⟨⟨by rfl, fun _ => rfl⟩, fun _ => ⟨rfl, rfl⟩, ⟨by rfl, fun _ => rfl⟩, by rfl, by rfl⟩

/-- C12: localisation is a single pass.  For every text `text`, also one that
is itself a placeholder, a placeholder that resolves to the string `text` is
replaced by `text` as it stands: the output is the text before the placeholder,
then `text`, then the localisation of the text behind the placeholder; `text`
is not handed to the localiser again. -/
theorem localize_single_pass (ext : JsVal → Str → Except Str JsVal) (index : List (Str × JsVal))
    (failOnMissing : Bool) (pre ws1 fileKey keyPath ws2 post : Str) (doc : JsVal) (text : Str)
    (hpre : ¬ tokenOpen <:+: pre)
    (hws1 : ∀ c ∈ ws1, isSpace c = true) (hws2 : ∀ c ∈ ws2, isSpace c = true)
    (hfk : fileKey ≠ []) (hfkc : ∀ c ∈ fileKey, isTokChar c = true)
    (hkpc : ∀ c ∈ keyPath, isPathChar c = true)
    (hidx : index.lookup fileKey = some doc) (hparts : keyParts keyPath ≠ [])
    (hres : jsonDescend doc (keyParts keyPath) = some (JsVal.str text)) :
    localizeHtmlPlaceholders ext (pre ++ (tokenText ws1 fileKey keyPath ws2 ++ post)) index
        failOnMissing
      = (localizeHtmlPlaceholders ext post index failOnMissing).map
          (fun out => pre ++ (text ++ out)) := by
  rw [localize_token_step ext index failOnMissing pre ws1 fileKey keyPath ws2 post hpre hws1 hws2
      hfk hfkc (keyPath_ne_nil_of_parts keyPath hparts) hkpc,
    replacer_resolved ext index failOnMissing _ fileKey keyPath doc (JsVal.str text) hidx hparts
      hres rfl]
  rfl

/-- C12 at the example of the claim: with `nav.a` set to the text of the
placeholder `nav.b` and `nav.b` set to `X`, the placeholder `nav.a` becomes the
text of the placeholder `nav.b`, not `X`, although that text handed to the
localiser would become `X`. -/
theorem localize_single_pass_example :
    localizeHtmlPlaceholders (fun _ _ => .ok JsVal.undefined)
        "<p>$\x7b\x7b nav.a \x7d\x7d$</p>".toList
        [("nav".toList, JsVal.obj [("a".toList, JsVal.str "$\x7b\x7b nav.b \x7d\x7d$".toList),
          ("b".toList, JsVal.str "X".toList)])] false
      = .ok "<p>$\x7b\x7b nav.b \x7d\x7d$</p>".toList ∧
    localizeHtmlPlaceholders (fun _ _ => .ok JsVal.undefined)
        "<p>$\x7b\x7b nav.b \x7d\x7d$</p>".toList
        [("nav".toList, JsVal.obj [("a".toList, JsVal.str "$\x7b\x7b nav.b \x7d\x7d$".toList),
          ("b".toList, JsVal.str "X".toList)])] false
      = .ok "<p>X</p>".toList :=
  ⟨(localize_single_pass (fun _ _ => .ok JsVal.undefined)
      [("nav".toList, JsVal.obj [("a".toList, JsVal.str "$\x7b\x7b nav.b \x7d\x7d$".toList),
        ("b".toList, JsVal.str "X".toList)])] false
      "<p>".toList " ".toList "nav".toList "a".toList " ".toList "</p>".toList
      (JsVal.obj [("a".toList, JsVal.str "$\x7b\x7b nav.b \x7d\x7d$".toList),
        ("b".toList, JsVal.str "X".toList)]) "$\x7b\x7b nav.b \x7d\x7d$".toList
      (by decide) (by decide) (by decide) (by decide) (by decide) (by decide) (by rfl)
      (by decide) (by rfl)).trans (by rfl), by rfl⟩

/-! ### The two modes of the pruner compared -/

theorem keepSelector_mode (used : UsageSet) (sel : Str) (li : Nat)
    (h : (keepSelector true used sel li).1 = true) :
    (keepSelector false used sel li).1 = true := by
  by_cases h1 : ((getAttrTokens sel li).forceKeep && !false) = true
  · unfold keepSelector
    simp only [h1, if_true]
  · by_cases h2 : (!false && hasRiskyChar sel) = true
    · unfold keepSelector
      simp only [h2, if_true]
      split <;> rfl
    · simp only [Bool.not_eq_true] at h1 h2
      rw [keepSelector_by_tokens false used sel li h1 h2]
      exact (keepSelector_by_tokens true used sel li (by simp) (by simp)).1 h

theorem keepSelector_state_mode (used1 used2 : UsageSet) (a1 a2 : Bool) (sel : Str) (li : Nat) :
    (keepSelector a1 used1 sel li).2 = (keepSelector a2 used2 sel li).2 := by
  rw [keepSelector_lastIndex, keepSelector_lastIndex]

theorem filterSelectors_mode (used : UsageSet) (sels : List Str) (li : Nat) :
    (filterSelectors true used sels li).1.Sublist (filterSelectors false used sels li).1 ∧
    (filterSelectors true used sels li).2 = (filterSelectors false used sels li).2 := by
  induction sels generalizing li with
  | nil => exact ⟨List.Sublist.refl _, rfl⟩
  | cons s ss ih =>
    have hs := keepSelector_state_mode used used true false s li
    have hm := keepSelector_mode used s li
    simp only [filterSelectors]
    rw [hs]
    obtain ⟨h1, h2⟩ := ih (keepSelector false used s li).2
    refine ⟨?_, h2⟩
    cases ht : (keepSelector true used s li).1
    · cases hf : (keepSelector false used s li).1
      · simpa using h1
      · simpa using h1.cons s
    · rw [hm ht]
      simpa using h1.cons₂ s

mutual
theorem trimNode_state_mode (used : UsageSet) (n : Node) (li : Nat) :
    (trimNode true used n li).2 = (trimNode false used n li).2 := by
  match n with
  | .rule selector nodes =>
    simp only [trimNode]
    rw [(filterSelectors_mode used (selectorList selector) li).2]
    have := trimNodes_state_mode used nodes (filterSelectors false used (selectorList selector) li).2
    split <;> split <;> exact this
  | .atrule name params (some nodes) =>
    simp only [trimNode]
    exact trimNodes_state_mode used nodes li
  | .atrule name params none => rfl
  | .decl prop value => rfl
  | .comment text => rfl
theorem trimNodes_state_mode (used : UsageSet) (ns : List Node) (li : Nat) :
    (trimNodes true used ns li).2 = (trimNodes false used ns li).2 := by
  match ns with
  | [] => rfl
  | n :: rest =>
    simp only [trimNodes]
    rw [trimNode_state_mode used n li]
    exact trimNodes_state_mode used rest (trimNode false used n li).2
end


theorem trimNode_survives_mode (used : UsageSet) (n : Node) (li : Nat)
    (h : (trimNode false used n li).1 = none) : (trimNode true used n li).1 = none := by
  cases n with
  | rule selector nodes =>
    simp only [trimNode] at h ⊢
    have hsub := (filterSelectors_mode used (selectorList selector) li).1
    by_cases hf : (filterSelectors false used (selectorList selector) li).1.isEmpty = true
    · have ht : (filterSelectors true used (selectorList selector) li).1 = [] := by
        rw [List.isEmpty_iff] at hf
        rw [hf] at hsub
        exact List.eq_nil_of_sublist_nil hsub
      simp [ht]
    · simp [hf] at h
  | atrule name params nodes =>
    cases nodes <;> simp [trimNode] at h
  | decl prop value => simp [trimNode] at h
  | comment text => simp [trimNode] at h

theorem trimNodes_length_mode (used : UsageSet) (ns : List Node) (li : Nat) :
    (trimNodes true used ns li).1.length ≤ (trimNodes false used ns li).1.length := by
  induction ns generalizing li with
  | nil => simp [trimNodes]
  | cons n rest ih =>
    simp only [trimNodes]
    rw [trimNode_state_mode used n li]
    have hrest := ih (trimNode false used n li).2
    cases hf : (trimNode false used n li).1 with
    | none =>
      rw [trimNode_survives_mode used n li hf]
      exact hrest
    | some nf =>
      cases ht : (trimNode true used n li).1 with
      | none => exact Nat.le_succ_of_le hrest
      | some nt => exact Nat.succ_le_succ hrest

/-- C17 (evaluation at the failing input): in aggressive mode with an empty
usage set the selector `[class="t"]` is dropped when `attrTokenRe.lastIndex` is 0,
the selector `[class^="x"]` leaves `lastIndex` at 12, and from there `[class="t"]`
is kept; so the stylesheet with the rule `[class="t"]` alone is pruned to
nothing, while behind the rule `[class^="x"]`, or behind that selector in one
rule, `[class="t"]` stays. -/
theorem trimInlineCss_stale_lastIndex :
    (keepSelector true ⟨[], []⟩ "[class=\"t\"]".toList 0).1 = false ∧
    keepSelector true ⟨[], []⟩ "[class^=\"x\"]".toList 0 = (true, 12) ∧
    (keepSelector true ⟨[], []⟩ "[class=\"t\"]".toList 12).1 = true ∧
    trimRoot true ⟨[], []⟩
        [Node.rule "[class=\"t\"]".toList [Node.decl "color".toList "red".toList]] = [] ∧
    trimRoot true ⟨[], []⟩
        [Node.rule "[class^=\"x\"]".toList [Node.decl "color".toList "blue".toList],
         Node.rule "[class=\"t\"]".toList [Node.decl "color".toList "red".toList]]
      = [Node.rule "[class^=\"x\"]".toList [Node.decl "color".toList "blue".toList],
         Node.rule "[class=\"t\"]".toList [Node.decl "color".toList "red".toList]] ∧
    trimRoot true ⟨[], []⟩
        [Node.rule "[class^=\"x\"], [class=\"t\"]".toList
          [Node.decl "color".toList "red".toList]]
      = [Node.rule "[class^=\"x\"], [class=\"t\"]".toList
          [Node.decl "color".toList "red".toList]] := by
  refine ⟨by decide, by decide, by decide, by rfl, by rfl, by rfl⟩

/-- C20: for every usage set, every selector and every `lastIndex`, a selector
that `keepSelector` keeps in aggressive mode is kept in conservative mode; on
every rule the selectors kept in aggressive mode are a subsequence of those kept
in conservative mode, and a rule that conservative pruning removes is removed by
aggressive pruning; the walk leaves the same `lastIndex` in both modes, so that
every rule of a stylesheet is examined from the same `lastIndex`; and aggressive
pruning leaves no more nodes in a container than conservative pruning. -/
theorem trimInlineCss_conservative_superset (used : UsageSet) :
    (∀ (sel : Str) (li : Nat), (keepSelector true used sel li).1 = true →
      (keepSelector false used sel li).1 = true) ∧
    (∀ (selector : Str) (li : Nat),
      (filterSelectors true used (selectorList selector) li).1.Sublist
        (filterSelectors false used (selectorList selector) li).1) ∧
    (∀ (selector : Str) (nodes : List Node) (li : Nat),
      (trimNode false used (.rule selector nodes) li).1 = none →
      (trimNode true used (.rule selector nodes) li).1 = none) ∧
    (∀ (nodes : List Node) (li : Nat),
      (trimNodes true used nodes li).2 = (trimNodes false used nodes li).2) ∧
    (∀ root : List Node,
      (trimRoot true used root).length ≤ (trimRoot false used root).length) :=
  ⟨fun sel li h => keepSelector_mode used sel li h,
   fun selector li => (filterSelectors_mode used (selectorList selector) li).1,
   fun _ _ li h => trimNode_survives_mode used _ li h,
   fun nodes li => trimNodes_state_mode used nodes li,
   fun root => trimNodes_length_mode used root 0⟩

/-! ### The pass over empty at-rules and the variant -/

theorem stripNodes_append (a b : List Node) : stripNodes (a ++ b) = stripNodes a ++ stripNodes b := by
  induction a with
  | nil => simp [stripNodes]
  | cons n ns ih =>
    rw [List.cons_append]
    simp only [stripNodes]
    cases stripNode n <;> simp [ih]

theorem stripNodes_atrule_empty (name params : Str) (cs a b : List Node)
    (h : ∀ c ∈ cs, isComment c = true) :
    stripNodes (a ++ Node.atrule name params (some cs) :: b) = stripNodes a ++ stripNodes b := by
  have hany : cs.any (fun n => !isComment n) = false := by
    simp only [List.any_eq_false, Bool.not_eq_true', Bool.not_eq_false]
    intro c hc; simp [h c hc]
  rw [stripNodes_append]
  simp [stripNodes, stripNode, hany]

theorem stripNodes_atrule_kept (name params : Str) (cs a b : List Node)
    (h : ∃ c ∈ cs, isComment c = false) :
    stripNodes (a ++ Node.atrule name params (some cs) :: b)
      = stripNodes a ++ Node.atrule name params (some (stripNodes cs)) :: stripNodes b := by
  have hany : cs.any (fun n => !isComment n) = true := by
    obtain ⟨c, hc, hcc⟩ := h
    simp only [List.any_eq_true, Bool.not_eq_true']
    exact ⟨c, hc, hcc⟩
  rw [stripNodes_append]
  simp [stripNodes, stripNode, hany]

theorem stripNodes_solid (cs : List Node) (h : ∃ c ∈ cs, isRule c = true ∨ isDecl c = true) :
    ∃ c ∈ stripNodes cs, isRule c = true ∨ isDecl c = true := by
  induction cs with
  | nil => simp at h
  | cons n ns ih =>
    obtain ⟨c, hc, hs⟩ := h
    rcases List.mem_cons.1 hc with rfl | hc
    · cases c with
      | rule selector nodes =>
        exact ⟨Node.rule selector (stripNodes nodes), by simp [stripNodes, stripNode],
          by simp [isRule]⟩
      | decl prop value =>
        exact ⟨Node.decl prop value, by simp [stripNodes, stripNode], by simp [isDecl]⟩
      | atrule name params nodes => simp [isRule, isDecl] at hs
      | comment text => simp [isRule, isDecl] at hs
    · obtain ⟨d, hd, hds⟩ := ih ⟨c, hc, hs⟩
      refine ⟨d, ?_, hds⟩
      simp only [stripNodes]
      cases stripNode n <;> simp [hd]

theorem not_comment_of_solid (c : Node) (h : isRule c = true ∨ isDecl c = true) :
    isComment c = false := by
  cases c <;> simp [isRule, isDecl, isComment] at h ⊢


theorem stripNodes_twice_kept (name params : Str) (cs a b : List Node)
    (h : ∃ c ∈ cs, isRule c = true ∨ isDecl c = true) :
    stripNodes (stripNodes (a ++ Node.atrule name params (some cs) :: b))
      = stripNodes (stripNodes a)
          ++ Node.atrule name params (some (stripNodes (stripNodes cs)))
            :: stripNodes (stripNodes b) := by
  have h1 : ∃ c ∈ cs, isComment c = false := by
    obtain ⟨c, hc, hs⟩ := h
    exact ⟨c, hc, not_comment_of_solid c hs⟩
  have h2 : ∃ c ∈ stripNodes cs, isComment c = false := by
    obtain ⟨c, hc, hs⟩ := stripNodes_solid cs h
    exact ⟨c, hc, not_comment_of_solid c hs⟩
  rw [stripNodes_atrule_kept name params cs a b h1,
    stripNodes_atrule_kept name params (stripNodes cs) _ _ h2]

theorem joinTruthy_pair_isEmpty (sep a b : Str) (h : (joinTruthy sep [a, b]).isEmpty = true) :
    a = [] ∧ b = [] := by
  cases a with
  | nil =>
    cases b with
    | nil => exact ⟨rfl, rfl⟩
    | cons y ys => simp [joinTruthy, List.intercalate] at h
  | cons x xs =>
    cases b with
    | nil => simp [joinTruthy, List.intercalate] at h
    | cons y ys => simp [joinTruthy, List.intercalate] at h

theorem joinTruthy_head_only (sep a : Str) : joinTruthy sep [a, [], []] = a := by
  cases a <;> simp [joinTruthy, List.intercalate]

/-- C18 (evaluation at the failing input): the statement at-rule
`@charset "utf-8";`, which has no block, is sent to the head output by
`splitCss` and is removed by the pass of `stripEmptyAtRules`, so that the pass
returns the stringified empty root for every CSS text that the library parses to
this at-rule. -/
theorem stripEmptyAtRules_drops_charset :
    (splitNodes [Node.atrule "charset".toList "\"utf-8\"".toList none]).1
      = [Node.atrule "charset".toList "\"utf-8\"".toList none] ∧
    stripNodes [Node.atrule "charset".toList "\"utf-8\"".toList none] = [] ∧
    stripNodes [Node.atrule "charset".toList "\"utf-8\"".toList none,
        Node.atrule "media".toList "(max-width:600px)".toList
          (some [Node.rule ".a".toList [Node.decl "color".toList "red".toList]])]
      = [Node.atrule "media".toList "(max-width:600px)".toList
          (some [Node.rule ".a".toList [Node.decl "color".toList "red".toList]])] ∧
    (∀ (lib : CssLib) (cssText : Str), cssText ≠ [] →
      lib.parse cssText = [Node.atrule "charset".toList "\"utf-8\"".toList none] →
      stripEmptyAtRules lib cssText = lib.stringify []) := by
  refine ⟨by rfl, by rfl, by rfl, ?_⟩
  intro lib cssText hne hp
  have : cssText.isEmpty = false := by cases cssText <;> simp_all
  simp only [stripEmptyAtRules, this, Bool.false_eq_true, if_false, hp]
  rfl

/-- C16: for every variant the HTML returned is the inlining, with the returned
inline CSS, of the render made with the returned final head CSS, with the white
space between tags collapsed behind it when `minifyHtml` is set.  With pruning
on, the returned inline CSS is the conservative pruning of the extracted inline
CSS joined with the head-extra CSS, and the returned head CSS is the head-only
CSS, unpruned and first, joined with the aggressive pruning of the extracted head
CSS joined with the head-extra CSS, passed through `stripEmptyAtRules` (twice);
both prunings use the usage scanned from the first render.  When there is
neither extracted head CSS nor head-extra CSS, the head CSS is the head-only CSS
passed through `stripEmptyAtRules`. -/
theorem buildHtmlVariant_composition (env : BuildEnv) (minifyHead : Bool)
    (prettyHtml : Option Bool) (minifyInline minifyHtml : Bool) :
    (buildHtmlVariant env minifyHead prettyHtml minifyInline minifyHtml).html
      = (if minifyHtml then
          minifyHtmlText (env.inline
            (env.render (buildHtmlVariant env minifyHead prettyHtml minifyInline
              minifyHtml).headCssFinal (prettyHtml.getD env.pretty))
            (buildHtmlVariant env minifyHead prettyHtml minifyInline minifyHtml).inlineCssFinal)
        else
          env.inline
            (env.render (buildHtmlVariant env minifyHead prettyHtml minifyInline
              minifyHtml).headCssFinal (prettyHtml.getD env.pretty))
            (buildHtmlVariant env minifyHead prettyHtml minifyInline minifyHtml).inlineCssFinal) ∧
    (env.trimCss = true →
      (buildHtmlVariant env minifyHead prettyHtml minifyInline minifyHtml).inlineCssFinal
        = trimInlineCss env.lib (firstInlineCss env minifyHead minifyInline)
            (firstUsage env minifyHead prettyHtml) false) ∧
    (env.trimCss = true → (headTrimTarget env minifyHead).isEmpty = false →
      (buildHtmlVariant env minifyHead prettyHtml minifyInline minifyHtml).headCssFinal
        = stripEmptyAtRules env.lib (stripEmptyAtRules env.lib
            (joinTruthy "\n\n".toList
              [minifySafe env.lib minifyHead env.headOnlyRaw,
               trimInlineCss env.lib (headTrimTarget env minifyHead)
                 (firstUsage env minifyHead prettyHtml) true]))) ∧
    (env.trimCss = true → (headTrimTarget env minifyHead).isEmpty = true →
      (buildHtmlVariant env minifyHead prettyHtml minifyInline minifyHtml).headCssFinal
        = stripEmptyAtRules env.lib (minifySafe env.lib minifyHead env.headOnlyRaw)) ∧
    (env.trimCss = false →
      (buildHtmlVariant env minifyHead prettyHtml minifyInline minifyHtml).headCssFinal
        = stripEmptyAtRules env.lib (firstHeadCss env minifyHead) ∧
      (buildHtmlVariant env minifyHead prettyHtml minifyInline minifyHtml).inlineCssFinal
        = firstInlineCss env minifyHead minifyInline) := by
  refine ⟨?_, ?_, ?_, ?_, ?_⟩
  · cases minifyHtml <;> rfl
  · intro ht
    simp only [buildHtmlVariant, ht, if_true]
    rfl
  · intro ht he
    have he' : (joinTruthy "\n\n".toList [minifySafe env.lib minifyHead env.headCssRaw,
        minifySafe env.lib minifyHead env.headExtraRaw]).isEmpty = false := he
    simp only [buildHtmlVariant, ht, he', Bool.not_false, Bool.and_self, if_true]
    rfl
  · intro ht he
    have he' : (joinTruthy "\n\n".toList [minifySafe env.lib minifyHead env.headCssRaw,
        minifySafe env.lib minifyHead env.headExtraRaw]).isEmpty = true := he
    obtain ⟨h1, h2⟩ := joinTruthy_pair_isEmpty _ _ _ he'
    simp only [buildHtmlVariant, ht, he', Bool.not_true, Bool.and_false, Bool.false_eq_true,
      if_false]
    simp only [h1, h2, joinTruthy_head_only]
  · intro ht
    simp only [buildHtmlVariant, ht, Bool.false_and, Bool.false_eq_true, if_false]
    exact ⟨rfl, rfl⟩


/-- C15 (counterexample): with an empty usage set, aggressive pruning turns
`@supports (display:grid)` around `@media (max-width:600px)` around the rule
`.unused` into the `@supports` block around the emptied `@media` block, so that
the `@supports` block still has a child that is no comment; the first pass of
`stripEmptyAtRules` removes the `@media` block and keeps `@supports`, and the
second pass, which `buildHtmlVariant` runs on the result, removes `@supports`. -/
theorem stripEmptyAtRules_nested_counterexample :
    trimRoot true ⟨[], []⟩
        [Node.atrule "supports".toList "(display:grid)".toList
          (some [Node.atrule "media".toList "(max-width:600px)".toList
            (some [Node.rule ".unused".toList [Node.decl "color".toList "red".toList]])])]
      = [Node.atrule "supports".toList "(display:grid)".toList
          (some [Node.atrule "media".toList "(max-width:600px)".toList (some [])])] ∧
    stripNodes
        [Node.atrule "supports".toList "(display:grid)".toList
          (some [Node.atrule "media".toList "(max-width:600px)".toList (some [])])]
      = [Node.atrule "supports".toList "(display:grid)".toList (some [])] ∧
    stripNodes (stripNodes
        [Node.atrule "supports".toList "(display:grid)".toList
          (some [Node.atrule "media".toList "(max-width:600px)".toList (some [])])])
      = [] :=
  ⟨by rfl, by rfl, by rfl⟩

/-- C15 (amended): the final head CSS of `buildHtmlVariant` is always a result
of `stripEmptyAtRules`, applied twice when the head CSS is pruned.  A pass of
`stripEmptyAtRules` removes every at-rule whose block pruning has left without a
child other than a comment, in either mode, for every usage set and wherever the
at-rule stands among its siblings; it keeps, with its children passed in turn,
every at-rule that has a child other than a comment when the pass examines it;
and two passes keep every at-rule that has a rule or a declaration among its
children.  The block `@media (max-width:600px)` around the one rule `.unused`,
pruned with an empty usage set, is gone after the pass. -/
theorem stripEmptyAtRules_final (env : BuildEnv) (minifyHead : Bool)
    (prettyHtml : Option Bool) (minifyInline minifyHtml : Bool) :
    (buildHtmlVariant env minifyHead prettyHtml minifyInline minifyHtml).headCssFinal
      = stripEmptyAtRules env.lib
          (if env.trimCss && !(headTrimTarget env minifyHead).isEmpty then
            stripEmptyAtRules env.lib
              (joinTruthy "\n\n".toList
                [minifySafe env.lib minifyHead env.headOnlyRaw,
                 trimInlineCss env.lib (headTrimTarget env minifyHead)
                   (firstUsage env minifyHead prettyHtml) true])
          else firstHeadCss env minifyHead) ∧
    (∀ (aggressive : Bool) (used : UsageSet) (li : Nat) (name params : Str)
        (ns a b : List Node) (n : Node),
      (trimNode aggressive used (.atrule name params (some ns)) li).1 = some n →
      (∀ c ∈ (trimNodes aggressive used ns li).1, isComment c = true) →
      stripNodes (a ++ n :: b) = stripNodes a ++ stripNodes b) ∧
    (∀ (name params : Str) (cs a b : List Node), (∃ c ∈ cs, isComment c = false) →
      stripNodes (a ++ Node.atrule name params (some cs) :: b)
        = stripNodes a ++ Node.atrule name params (some (stripNodes cs)) :: stripNodes b) ∧
    (∀ (name params : Str) (cs a b : List Node),
      (∃ c ∈ cs, isRule c = true ∨ isDecl c = true) →
      stripNodes (stripNodes (a ++ Node.atrule name params (some cs) :: b))
        = stripNodes (stripNodes a)
            ++ Node.atrule name params (some (stripNodes (stripNodes cs)))
              :: stripNodes (stripNodes b)) ∧
    stripNodes (trimRoot true ⟨[], []⟩
        [Node.atrule "media".toList "(max-width:600px)".toList
          (some [Node.rule ".unused".toList [Node.decl "color".toList "red".toList]])])
      = [] := by
  refine ⟨rfl, ?_, fun name params cs a b h => stripNodes_atrule_kept name params cs a b h,
    fun name params cs a b h => stripNodes_twice_kept name params cs a b h, by rfl⟩
  intro aggressive used li name params ns a b n hn hc
  simp only [trimNode, Option.some.injEq] at hn
  rw [← hn]
  exact stripNodes_atrule_empty name params _ a b hc

/-! ### The locale loop -/

/-- The loop from any state that the loop itself can have reached is the
sequence of the outputs of the locales taken by themselves, cut at the first
failure. -/
theorem localeLoop_eq_collect (ctx : LocaleCtx) (locales : List Str) (bc bp : Option Str)
    (hbc : isFalsyText bc = true ∨ bc = some (compactHtml ctx))
    (hbp : isFalsyText bp = true ∨ bp = some (prettyHtml ctx)) :
    localeLoop ctx bc bp locales = collectOutputs (locales.map (localeOutput ctx)) := by
  induction locales generalizing bc bp with
  | nil => rfl
  | cons l rest ih =>
    have hc : (if isFalsyText bc then some (compactHtml ctx) else bc) = some (compactHtml ctx) := by
      rcases hbc with h | h
      · simp [h]
      · by_cases hf : isFalsyText bc = true
        · simp [hf]
        · simp [hf, h]
    have hrec := ih (some (compactHtml ctx)) (some (prettyHtml ctx)) (Or.inr rfl) (Or.inr rfl)
    have hrec2 := ih (some (compactHtml ctx)) bp (Or.inr rfl) hbp
    simp only [localeLoop, List.map_cons, hc, Option.getD_some]
    generalize List.map (localeOutput ctx) rest = outs at hrec hrec2 ⊢
    unfold localeOutput
    cases hl : localizeHtmlPlaceholders ctx.ext (compactHtml ctx) (ctx.index l)
        ctx.argv.failOnMissing with
    | error e => rfl
    | ok localized =>
      simp only
      by_cases hp : ctx.env.pretty = true
      · have hpp : (if (ctx.env.pretty && isFalsyText bp) = true then some (prettyHtml ctx)
            else bp) = some (prettyHtml ctx) := by
          rcases hbp with h | h
          · simp [h, hp]
          · by_cases hf : isFalsyText bp = true
            · simp [hf, hp]
            · simp [hf, h]
        have hf : isFalsyText (some (prettyHtml ctx)) = (prettyHtml ctx).isEmpty := rfl
        simp only [hpp]
        simp only [hp, Bool.true_and, Option.getD_some, hf, if_true]
        by_cases he : (prettyHtml ctx).isEmpty = true
        · simp only [he, Bool.not_true, Bool.false_eq_true, if_false, collectOutputs, hrec]
        · simp only [he, Bool.not_false, if_true]
          cases localizeHtmlPlaceholders ctx.ext (prettyHtml ctx) (ctx.index l)
              ctx.argv.failOnMissing with
          | error e => rfl
          | ok lp => simp only [collectOutputs, hrec]
      · simp only [Bool.not_eq_true] at hp
        simp only [hp, Bool.false_and, Bool.false_eq_true, if_false, collectOutputs]
        rw [hrec2]

theorem runLocales_eq_collect (ctx : LocaleCtx) (locales : List Str) :
    runLocales ctx locales = collectOutputs (locales.map (localeOutput ctx)) := by
  unfold runLocales
  apply localeLoop_eq_collect
  · by_cases h : ctx.argv.base = true
    · simp [h]
    · simp [h, isFalsyText]
  · by_cases h : (ctx.argv.base && ctx.env.pretty) = true
    · simp [h]
    · simp [h, isFalsyText]


theorem collectOutputs_mem (xs : List (Except Str LocaleOutput)) (o : LocaleOutput)
    (h : o ∈ (collectOutputs xs).written) : Except.ok o ∈ xs := by
  induction xs with
  | nil => simp [collectOutputs] at h
  | cons x rest ih =>
    cases x with
    | error e => simp [collectOutputs] at h
    | ok o1 =>
      simp only [collectOutputs, List.mem_cons] at h
      rcases h with h | h
      · simp [h]
      · exact List.mem_cons_of_mem _ (ih h)

theorem collectOutputs_append (a b : List (Except Str LocaleOutput))
    (h : (collectOutputs a).died = none) :
    collectOutputs (a ++ b) =
      ⟨(collectOutputs a).written ++ (collectOutputs b).written, (collectOutputs b).died⟩ := by
  induction a with
  | nil => rfl
  | cons x rest ih =>
    cases x with
    | error e => simp [collectOutputs] at h
    | ok o =>
      simp only [collectOutputs] at h
      rw [List.cons_append]
      simp only [collectOutputs, ih h, List.cons_append]

theorem collectOutputs_died_left (a b : List (Except Str LocaleOutput))
    (h : (collectOutputs (a ++ b)).died = none) : (collectOutputs a).died = none := by
  induction a with
  | nil => rfl
  | cons x rest ih =>
    cases x with
    | error e => simp [collectOutputs] at h
    | ok o =>
      rw [List.cons_append] at h
      simp only [collectOutputs] at h
      simp only [collectOutputs, ih h]

theorem collectOutputs_all_ok (a : List (Except Str LocaleOutput))
    (h : (collectOutputs a).died = none) :
    a = (collectOutputs a).written.map Except.ok := by
  induction a with
  | nil => rfl
  | cons x rest ih =>
    cases x with
    | error e => simp [collectOutputs] at h
    | ok o =>
      simp only [collectOutputs] at h
      simp only [collectOutputs, List.map_cons]
      rw [← ih h]

theorem localeOutput_locale (ctx : LocaleCtx) (l : Str) (o : LocaleOutput)
    (h : localeOutput ctx l = .ok o) : o.locale = l := by
  unfold localeOutput at h
  split at h
  · cases h
  · split at h
    · split at h
      · cases h
      · cases h; rfl
    · cases h; rfl

theorem getLast?_of_all_eq {α : Type} (l : List α) (a : α) (hne : l ≠ [])
    (h : ∀ x ∈ l, x = a) : l.getLast? = some a := by
  rw [List.getLast?_eq_getLast _ hne, h _ (List.getLast_mem hne)]

theorem outputOf_eq_none (r : RunResult) (l : Str) (h : ∀ o ∈ r.written, o.locale ≠ l) :
    outputOf r l = none := by
  unfold outputOf
  have : r.written.filter (fun o => o.locale == l) = [] := by
    rw [List.filter_eq_nil_iff]
    intro o ho
    simpa using h o ho
  rw [this]; rfl

/-- The counterexample to C13 as stated: in strict mode, with `nav.json` of `en`
lacking the key `title`, the run over `en` then `es` writes nothing for `es`,
while the run over `es` alone writes its page; and without strict mode, with the
title of `ja` an object with an own key `toString`, the run over `ja` then `es`
writes nothing for `es` either. -/
theorem locale_independence_counterexample :
    (outputOf (runLocales (sampleCtx true sampleIndex) ["en".toList, "es".toList]) "es".toList
        = none ∧
      outputOf (runLocales (sampleCtx true sampleIndex) ["es".toList]) "es".toList
        = some ⟨"es".toList, "<p>Hola</p>".toList, none⟩) ∧
    (outputOf (runLocales (sampleCtx false sampleIndex) ["ja".toList, "es".toList]) "es".toList
        = none ∧
      outputOf (runLocales (sampleCtx false sampleIndex) ["es".toList]) "es".toList
        = some ⟨"es".toList, "<p>Hola</p>".toList, none⟩) :=
  ⟨⟨by rfl, by rfl⟩, by rfl, by rfl⟩

/-- C13 (amended): when the run reaches the locale `es` and localises it (no
localisation up to it raises, so that `die` has not ended the process), the
output of `es` after the run over the whole list, whatever comes before and
behind `es`, is the output of `es` after the run over `es` alone; there is such
an output; and the run over `es` alone is the same for every other assignment of
translation indexes to locales that gives `es` the same index. -/
theorem locale_independence (ctx : LocaleCtx) (before after : List Str) (es : Str)
    (hrun : (runLocales ctx (before ++ [es])).died = none) :
    outputOf (runLocales ctx (before ++ es :: after)) es = outputOf (runLocales ctx [es]) es ∧
    (∃ o, outputOf (runLocales ctx [es]) es = some o ∧ o.locale = es) ∧
    ∀ index1 : Str → List (Str × JsVal), index1 es = ctx.index es →
      runLocales ⟨ctx.env, ctx.argv, ctx.ext, index1, ctx.beautifyHtml⟩ [es]
        = runLocales ctx [es] := by
  rw [runLocales_eq_collect, List.map_append] at hrun
  have hbefore := collectOutputs_died_left _ _ hrun
  have hes : ∃ o, localeOutput ctx es = .ok o := by
    rw [collectOutputs_append _ _ hbefore] at hrun
    cases h : localeOutput ctx es with
    | error e => simp [collectOutputs, h] at hrun
    | ok o => exact ⟨o, rfl⟩
  obtain ⟨oes, hoes⟩ := hes
  have hloc := localeOutput_locale ctx es oes hoes
  have hsingle : outputOf (runLocales ctx [es]) es = some oes := by
    rw [runLocales_eq_collect]
    simp [outputOf, collectOutputs, hoes, hloc]
  refine ⟨?_, ⟨oes, hsingle, hloc⟩, ?_⟩
  · rw [hsingle]
    unfold outputOf
    apply getLast?_of_all_eq
    · intro hnil
      have hmem : oes ∈ List.filter (fun o => o.locale == es)
          (runLocales ctx (before ++ es :: after)).written := by
        rw [List.mem_filter]
        refine ⟨?_, by simp [hloc]⟩
        have hsplit : before ++ es :: after = (before ++ [es]) ++ after := by simp
        rw [runLocales_eq_collect, hsplit, List.map_append, List.map_append,
          collectOutputs_append _ _ hrun, collectOutputs_append _ _ hbefore]
        simp [collectOutputs, hoes]
      rw [hnil] at hmem
      simp at hmem
    · intro o ho
      rw [List.mem_filter] at ho
      obtain ⟨hmem, hl⟩ := ho
      have hl1 : o.locale = es := by simpa using hl
      rw [runLocales_eq_collect] at hmem
      obtain ⟨l, _, hl2⟩ := List.mem_map.1 (collectOutputs_mem _ _ hmem)
      have hl3 := localeOutput_locale ctx l o hl2
      rw [hl1] at hl3
      rw [← hl3, hoes] at hl2
      exact (Except.ok.inj hl2).symm
  · intro index1 h1
    simp only [runLocales, localeLoop, compactHtml, prettyHtml, h1]

/-- C13 (amended) at an example: in strict mode the run over `de`, `es`, `it`,
all of which have their title, leaves for `es` the page that the run over `es`
alone leaves, with the title of `es`. -/
theorem locale_independence_example :
    (runLocales (sampleCtx true sampleIndex) (["de".toList] ++ ["es".toList])).died = none ∧
    outputOf (runLocales (sampleCtx true sampleIndex)
        (["de".toList] ++ "es".toList :: ["it".toList])) "es".toList
      = outputOf (runLocales (sampleCtx true sampleIndex) ["es".toList]) "es".toList ∧
    outputOf (runLocales (sampleCtx true sampleIndex) ["es".toList]) "es".toList
      = some ⟨"es".toList, "<p>Hola</p>".toList, none⟩ :=
  ⟨by rfl,
    (locale_independence (sampleCtx true sampleIndex) ["de".toList] ["it".toList] "es".toList
      (by rfl)).1, by rfl⟩

theorem localeOutput_error (ctx : LocaleCtx) (l e : Str)
    (h : localizeHtmlPlaceholders ctx.ext (compactHtml ctx) (ctx.index l)
      ctx.argv.failOnMissing = .error e) :
    localeOutput ctx l = .error (localizationFailed l e) := by
  unfold localeOutput
  rw [h]

/-- The counterexample to C14 as stated: in strict mode, with no `nav.json` for
`fr`, the run over `de`, `fr`, `it` writes the page of `de` and ends with the
message of `die` for `fr`; nothing is written for `it`, which comes later in the
list and whose page the run over `it` alone writes. -/
theorem strict_failure_counterexample :
    runLocales (sampleCtx true sampleIndex) ["de".toList, "fr".toList, "it".toList]
      = ⟨[⟨"de".toList, "<p>Hallo</p>".toList, none⟩],
          some ("Localization failed for locale ".toList ++ squote :: ("fr".toList ++
            squote :: ": Missing translation file: nav.json".toList))⟩ ∧
    outputOf (runLocales (sampleCtx true sampleIndex)
        ["de".toList, "fr".toList, "it".toList]) "it".toList = none ∧
    runLocales (sampleCtx true sampleIndex) ["it".toList]
      = ⟨[⟨"it".toList, "<p>Ciao</p>".toList, none⟩], none⟩ :=
  ⟨by rfl, by rfl, by rfl⟩

/-- C14 (amended): when the localisation of the compact page raises `e` for the
locale `bad` (in strict mode: a missing translation file or key), after a list
of locales that were all localised, the run ends there with the message
`Localization failed for locale '<bad>': <e>` of `die`: the pages written are
those of the locales before `bad`, one for each in their order, and no locale
that is not among them, neither `bad` nor one that comes later in the list, has
any output, whatever the list behind `bad` is. -/
theorem strict_failure_ends_run (ctx : LocaleCtx) (before after : List Str) (bad e : Str)
    (hbefore : (runLocales ctx before).died = none)
    (hbad : localizeHtmlPlaceholders ctx.ext (compactHtml ctx) (ctx.index bad)
      ctx.argv.failOnMissing = .error e) :
    runLocales ctx (before ++ bad :: after)
      = ⟨(runLocales ctx before).written, some (localizationFailed bad e)⟩ ∧
    (runLocales ctx before).written.map (fun o => o.locale) = before ∧
    ∀ l, l ∉ before → outputOf (runLocales ctx (before ++ bad :: after)) l = none := by
  have hrun : runLocales ctx (before ++ bad :: after)
      = ⟨(runLocales ctx before).written, some (localizationFailed bad e)⟩ := by
    rw [runLocales_eq_collect] at hbefore
    rw [runLocales_eq_collect, runLocales_eq_collect, List.map_append,
      collectOutputs_append _ _ hbefore, List.map_cons, localeOutput_error ctx bad e hbad]
    simp [collectOutputs]
  have hloc : ∀ o ∈ (runLocales ctx before).written, o.locale ∈ before := by
    intro o ho
    rw [runLocales_eq_collect] at ho
    obtain ⟨l, hl, hl2⟩ := List.mem_map.1 (collectOutputs_mem _ _ ho)
    rw [localeOutput_locale ctx l o hl2]
    exact hl
  refine ⟨hrun, ?_, ?_⟩
  · rw [runLocales_eq_collect] at hbefore ⊢
    have hall := collectOutputs_all_ok _ hbefore
    generalize (collectOutputs (List.map (localeOutput ctx) before)).written = w at hall
    clear hbefore hrun hloc
    induction before generalizing w with
    | nil =>
      cases w with
      | nil => rfl
      | cons _ _ => simp at hall
    | cons l rest ih =>
      cases w with
      | nil => simp at hall
      | cons o w1 =>
        simp only [List.map_cons, List.cons.injEq] at hall
        simp only [List.map_cons, ih w1 hall.2, localeOutput_locale ctx l o hall.1]
  · intro l hl
    rw [hrun]
    apply outputOf_eq_none
    intro o ho h
    exact hl (h ▸ hloc o ho)

/-- C14 (amended) at an example: in strict mode, with no `nav.json` for `fr`,
the run over `de`, `fr`, `it` ends at `fr` with the page of `de` written and
none for `it`. -/
theorem strict_failure_ends_run_example :
    ((runLocales (sampleCtx true sampleIndex) ["de".toList]).died = none ∧
      localizeHtmlPlaceholders (sampleCtx true sampleIndex).ext
        (compactHtml (sampleCtx true sampleIndex)) ((sampleCtx true sampleIndex).index "fr".toList)
        (sampleCtx true sampleIndex).argv.failOnMissing
        = .error "Missing translation file: nav.json".toList) ∧
    "it".toList ∉ ["de".toList] ∧
    outputOf (runLocales (sampleCtx true sampleIndex)
      (["de".toList] ++ "fr".toList :: ["it".toList])) "it".toList = none :=
  ⟨⟨by rfl, by rfl⟩, by decide,
    (strict_failure_ends_run (sampleCtx true sampleIndex) ["de".toList] ["it".toList]
      "fr".toList "Missing translation file: nav.json".toList (by rfl) (by rfl)).2.2
      "it".toList (by decide)⟩

/-! ### The path guard of the preview server -/

/-- C19 evaluated: with the root `/srv/dist`, the request path
`/../dist-secret/x` is joined and normalised to `/srv/dist-secret/x`, of which
the text `/srv/dist` is a prefix, so that the guard lets it pass and
`resolvePath` answers that file of the sibling directory, which is not within
the root; the directory request `/../dist-secret` is answered with the index
file of the sibling directory; the request `/../other/x`, whose normalised path
does not begin with the text of the root, is refused, and `/` is answered with
the index file of the root. -/
theorem resolvePath_sibling_prefix :
    (posixNormalize (posixJoin ["/srv/dist".toList, "/../dist-secret/x".toList])
        = "/srv/dist-secret/x".toList ∧
      resolvePath sampleServeEnv "/../dist-secret/x".toList
        = .ok (some "/srv/dist-secret/x".toList) ∧
      withinRoot sampleServeEnv.DIST_ROOT "/srv/dist-secret/x".toList = false) ∧
    (resolvePath sampleServeEnv "/../dist-secret".toList
        = .ok (some "/srv/dist-secret/index.pretty.html".toList) ∧
      withinRoot sampleServeEnv.DIST_ROOT "/srv/dist-secret/index.pretty.html".toList = false) ∧
    resolvePath sampleServeEnv "/../other/x".toList = .ok none ∧
    (resolvePath sampleServeEnv "/".toList = .ok (some "/srv/dist/index.html".toList) ∧
      withinRoot sampleServeEnv.DIST_ROOT "/srv/dist/index.html".toList = true) :=
  ⟨⟨by rfl, by rfl, by rfl⟩, ⟨by rfl, by rfl⟩, by rfl, by rfl, by rfl⟩

end EmailBase
